import Mathlib

/-! Shallow embedding of `src/dfa-minimization.js`. -/

/-- A DFA table row: symbol → target state id (JS `{a: 2, b: 3}`). -/
abbrev MinRow := List (String × Nat)

/-- A DFA table: state id → row (JS object keyed by small integer ids). -/
abbrev MinTable := List (Nat × MinRow)

/-- Property read `row[symbol]` on a row object. -/
def rowLookup (r : MinRow) (sym : String) : Option Nat :=
  (r.find? (fun p => p.1 == sym)).map (·.2)

/-- Property read `table[state]`. -/
def tableLookup (T : MinTable) (s : Nat) : Option MinRow :=
  (T.find? (fun p => p.1 == s)).map (·.2)

/-- Insert into an ascending list (structural sorting helper). -/
def insertLeNat (x : Nat) : List Nat → List Nat
  | [] => [x]
  | y :: ys => if x ≤ y then x :: y :: ys else y :: insertLeNat x ys

/-- Ascending insertion sort on numeric keys (what JS ascending integer-key
iteration order amounts to; the keys involved are pairwise distinct). -/
def sortNat : List Nat → List Nat
  | [] => []
  | x :: xs => insertLeNat x (sortNat xs)

/-- Lexicographic comparison of character lists (JS compares strings by
code units). -/
def lexLe : List Char → List Char → Bool
  | [], _ => true
  | _ :: _, [] => false
  | c :: cs, d :: ds => if c = d then lexLe cs ds else decide (c < d)

/-- Insert into a lexicographically ascending list of strings. -/
def insertLeStr (x : String) : List String → List String
  | [] => [x]
  | y :: ys => if lexLe x.data y.data then x :: y :: ys else y :: insertLeStr x ys

/-- JS default `Array.sort()`: lexicographic on string representations. -/
def sortStr : List String → List String
  | [] => []
  | x :: xs => insertLeStr x (sortStr xs)

/-- `Object.keys(table)`: JS orders integer-like keys ascending; keys are unique. -/
def tableKeys (T : MinTable) : List Nat :=
  sortNat ((T.map Prod.fst).dedup)

/-- Module constant `accepting = new Set([2, 3])` (insertion order 2, 3). -/
def acceptingIds : List Nat := [2, 3]

/-- Module constant `alphabet = new Set(['a', 'b'])`. -/
def minAlphabet : List String := ["a", "b"]

/-- `goToSameSet(s1, s2, symbol)`. The source reads
`currentTransitionMap[s1][symbol]`: the map's values are `Set` objects, and a
`Set` has no own or prototype property named after an alphabet symbol, so both
sides of the `===` are `undefined` whenever both states have an entry in the
map. Hence the call returns `false` when either entry is missing and `true`
otherwise. Only the key set of the map is ever consulted, so the embedding
threads that key set. -/
def goToSameSetE (keys : List Nat) (s1 s2 : Nat) (_sym : String) : Bool :=
  decide (s1 ∈ keys) && decide (s2 ∈ keys)

/-- `areEquivalent(s1, s2)`: `goToSameSet` for every alphabet symbol. -/
def areEquivalentE (keys : List Nat) (s1 s2 : Nat) : Bool :=
  minAlphabet.all (fun sym => goToSameSetE keys s1 s2 sym)

/-- JS `Set` de-duplication: keep the first occurrence of each element
(`seen` accumulates the elements already kept). -/
def dedupKeepFirstGo : List Nat → List Nat → List Nat
  | _, [] => []
  | seen, x :: xs => if x ∈ seen then dedupKeepFirstGo seen xs
    else x :: dedupKeepFirstGo (seen ++ [x]) xs

/-- JS `Set` de-duplication of a numeric list. -/
def dedupKeepFirst (l : List Nat) : List Nat :=
  dedupKeepFirstGo [] l

/-- `handledStates[h]` read through the member → leader association. -/
def leaderOf (handled : List (Nat × Nat)) (h : Nat) : Nat :=
  ((handled.find? (fun p => p.1 == h)).map (·.2)).getD h

/-- The scan `for (const handledState of Object.keys(handledStates))`:
handled keys are visited in ascending numeric order; the first handled state
equivalent to `st` wins. -/
def findEquivHandled (keys : List Nat) (st : Nat) (handled : List (Nat × Nat)) : Option Nat :=
  (sortNat (handled.map Prod.fst)).find? (fun h => areEquivalentE keys st h)

/-- The `restSets:` loop body over the remaining members of one class.
`handled` associates each already-processed member with its subgroup leader
(shared `Set` object identity in the source). -/
def splitClassGo (keys : List Nat) : List (Nat × Nat) → List Nat → List (Nat × Nat)
  | handled, [] => handled
  | handled, st :: rest =>
    match findEquivHandled keys st handled with
    | some h => splitClassGo keys (handled ++ [(st, leaderOf handled h)]) rest
    | none => splitClassGo keys (handled ++ [(st, st)]) rest

/-- Splitting one equivalence class: `const [first, ...rest] = set` then the
`restSets:` loop. -/
def splitClass (keys : List Nat) : List Nat → List (Nat × Nat)
  | [] => []
  | first :: rest => splitClassGo keys [(first, first)] rest

/-- A partition: the list of current equivalence classes, each class holding
its members in `Set` insertion order. -/
abbrev Partition := List (List Nat)

/-- `Object.assign(newTransitionMap, handledStates)` accumulated over the
classes of the current partition (classes are disjoint, so no key collides). -/
def refineAssoc (keys : List Nat) (P : Partition) : List (Nat × Nat) :=
  P.foldl (fun acc cls => acc ++ splitClass keys cls) []

/-- The contents of the subgroup led by `ℓ`, in `Set` insertion order: the
leader first, then every member merged into it in processing order. -/
def classMembers (assoc : List (Nat × Nat)) (ℓ : Nat) : List Nat :=
  ℓ :: (assoc.filter (fun p => p.2 == ℓ && p.1 != ℓ)).map Prod.fst

/-- `new Set(Object.keys(newTransitionMap).map(state => newTransitionMap[state]))`:
keys ascending, values de-duplicated by object identity (= by leader), first
occurrence kept. -/
def partitionOf (assoc : List (Nat × Nat)) : Partition :=
  let keysAsc := sortNat (assoc.map Prod.fst)
  (dedupKeepFirst (keysAsc.map (leaderOf assoc))).map (classMembers assoc)

/-- `[...s].sort().join(',')`: JS `sort()` compares string representations. -/
def sortKeyJoin (l : List Nat) : String :=
  String.intercalate "," (sortStr (l.map toString))

/-- `sameRow(r1, r2)`; `r2` is `undefined` before the first iteration. -/
def sameRow (r1 : Partition) (r2 : Option Partition) : Bool :=
  match r2 with
  | none => false
  | some r2 =>
    r1.length == r2.length &&
    (List.zip r1 r2).all (fun p =>
      p.1.length == p.2.length && sortKeyJoin p.1 == sortKeyJoin p.2)

/-- The `while (!sameRow(current, previous))` refinement loop. After the first
iteration `currentTransitionMap` has been wholly replaced, so the key set
passed on is exactly the member list of the new partition. The fuel is an
artifact of the embedding: the loop stabilizes within three rounds on every
input because from round two on every consulted state has a map entry. -/
def refineLoop : Nat → List Nat → Partition → Option Partition → Option Partition
  | 0, _, _, _ => none
  | fuel + 1, keys, cur, prev =>
    if sameRow cur prev then some cur
    else
      let assoc := refineAssoc keys cur
      refineLoop fuel (assoc.map Prod.fst) (partitionOf assoc) (some cur)

/-- `remaped.get(currentTransitionMap[t])`: the 1-based index of the final
class containing `t`, if any (after the loop the live map's keys are exactly
the members of the final partition). -/
def classIndexOf (P : Partition) (t : Nat) : Option Nat :=
  (P.findIdx? (fun cls => decide (t ∈ cls))).map (· + 1)

/-- Building one minimized row from the representative's original row.
A present transition whose target is `0` is skipped because `0` is falsy in
JS; a target with no final class makes `remaped.get` return `undefined`,
which no reader of the table can distinguish from an absent key. -/
def buildRow (final : Partition) (origRow : MinRow) : MinRow :=
  minAlphabet.foldl (fun acc sym =>
    match rowLookup origRow sym with
    | none => acc
    | some t =>
      if t = 0 then acc
      else
        match classIndexOf final t with
        | none => acc
        | some j => acc ++ [(sym, j)]) []

/-- Step 2 of `minimize`: rebuild the table from the final classes. A class
whose representative has no row in the input table makes the source throw
(`table[originalState][symbol]` on `undefined`), modeled as `none`. -/
def rebuildGo (T : MinTable) (final : Partition) : Nat → Partition → Option MinTable
  | _, [] => some []
  | idx, cls :: rest =>
    match cls with
    | [] => none
    | orig :: _ =>
      match tableLookup T orig with
      | none => none
      | some row =>
        match rebuildGo T final (idx + 1) rest with
        | none => none
        | some tl => some ((idx, buildRow final row) :: tl)

/-- `minimize(table)`, with the process-wide `currentTransitionMap` made
explicit: `prior` is the key set the module-level map holds when the call
starts (its values are never read, only key existence). Returns the result
(`none` = the source throws) and the key set the map holds afterwards. -/
def minimizeRun (T : MinTable) (prior : List Nat) : Option MinTable × List Nat :=
  let tk := tableKeys T
  let keys0 := prior ++ tk
  let nonAcc := tk.filter (fun s => decide (s ∉ acceptingIds))
  let P0 := [nonAcc, acceptingIds].filter (fun c => decide (0 < c.length))
  match refineLoop (tk.length + 4) keys0 P0 none with
  | none => (none, keys0)
  | some final => (rebuildGo T final 1 final, final.foldl (fun a c => a ++ c) [])

/-- A `minimize` call in a fresh process (`currentTransitionMap = {}`). -/
def minimizeFresh (T : MinTable) : Option MinTable × List Nat :=
  minimizeRun T []

/-- The example table of the source file: `{1: {a: 2, b: 3}, 2: {}, 3: {}}`. -/
def exTable : MinTable := [(1, [("a", 2), ("b", 3)]), (2, []), (3, [])]



/-! Shallow embedding of `src/NFA-DFA-RegExp.js` (whose `State.matches` is
also, verbatim, `State.matches` of `src/NFA.js`). States live in an arena
indexed by creation order; a state's transition map is an insertion-ordered
association list (JS `Map`), each value an insertion-ordered duplicate-free
target list (JS `Set` of state objects, identity = arena index). -/

/-- The `EPSILON` symbol. Input strings are walked one character at a time,
so symbols are modeled as characters. -/
def EPS : Char := 'ε'

/-- One automaton state: accepting flag plus transition map. -/
structure NState where
  accepting : Bool
  trans : List (Char × List Nat)
deriving DecidableEq, Repr

/-- The arena of allocated states; a state's id is its index. -/
abbrev Arena := List NState

/-- Dereference a state id (ids produced by the combinators are in range). -/
def stateAt (a : Arena) (s : Nat) : NState :=
  (a.get? s).getD ⟨false, []⟩

/-- `state.accepting`. -/
def acceptingAt (a : Arena) (s : Nat) : Bool :=
  (stateAt a s).accepting

/-- `state.getTransitions()`. -/
def transList (a : Arena) (s : Nat) : List (Char × List Nat) :=
  (stateAt a s).trans

/-- Read-only lookup of the target set on a symbol (absent ⇒ empty). -/
def transOn (a : Arena) (s : Nat) (c : Char) : List Nat :=
  (((transList a s).find? (fun p => p.1 == c)).map (·.2)).getD []

/-- `Map.set` on a transition map: overwrite in place, else append. -/
def setKey (tr : List (Char × List Nat)) (c : Char) (v : List Nat) :
    List (Char × List Nat) :=
  if (tr.find? (fun p => p.1 == c)).isSome then
    tr.map (fun p => if p.1 == c then (c, v) else p)
  else tr ++ [(c, v)]

/-- Replace the transition map of state `s`. -/
def setTrans (a : Arena) (s : Nat) (tr : List (Char × List Nat)) : Arena :=
  a.set s { stateAt a s with trans := tr }

/-- `getTransitionsOnSymbol(symbol)`: returns the target set for `symbol`,
and when the symbol has no entry it creates, stores and returns a fresh empty
set — a write performed even by pure queries such as `matches`. -/
def getTransOnSym (a : Arena) (s : Nat) (c : Char) : List Nat × Arena :=
  match (transList a s).find? (fun p => p.1 == c) with
  | some p => (p.2, a)
  | none => ([], setTrans a s (setKey (transList a s) c []))

/-- `addTransition(symbol, toState)`: `Set.add` is idempotent per target. -/
def addTransition (a : Arena) (s : Nat) (c : Char) (t : Nat) : Arena :=
  let (ts, a1) := getTransOnSym a s c
  if t ∈ ts then a1
  else setTrans a1 s (setKey (transList a1 s) c (ts ++ [t]))

/-- `new NFAState({accepting})`: allocate, return the new id. -/
def newNState (a : Arena) (acc : Bool) : Nat × Arena :=
  (a.length, a ++ [⟨acc, []⟩])

/-- `state.accepting = b`. -/
def setAccepting (a : Arena) (s : Nat) (b : Bool) : Arena :=
  a.set s { stateAt a s with accepting := b }

/-- Combinator expressions. `alt`/`or` on more than two fragments are left
folds of `altPair`/`orPair`, so the binary forms generate all fragments. -/
inductive RE where
  | char (c : Char)
  | eps
  | alt2 (r1 r2 : RE)
  | or2 (r1 r2 : RE)
  | rep (r : RE)

/-- The fragment factories `char`, `e`, `altPair`, `orPair`, `rep`, executed
in source order against the arena. Returns `((in, out), arena)`. In `altPair`
the rewrite `first.out = second.in` mutates only the dead first fragment
value, never the graph, so it does not appear here. -/
def compile : RE → Arena → (Nat × Nat) × Arena
  | .char c, a =>
    let (i, a) := newNState a false
    let (o, a) := newNState a true
    ((i, o), addTransition a i c o)
  | .eps, a =>
    let (i, a) := newNState a false
    let (o, a) := newNState a true
    ((i, o), addTransition a i EPS o)
  | .alt2 r1 r2, a =>
    let ((i1, o1), a) := compile r1 a
    let ((i2, o2), a) := compile r2 a
    let a := setAccepting a o1 false
    let a := setAccepting a o2 true
    let a := addTransition a o1 EPS i2
    ((i1, o2), a)
  | .or2 r1 r2, a =>
    let ((i1, o1), a) := compile r1 a
    let ((i2, o2), a) := compile r2 a
    let (i, a) := newNState a false
    let (o, a) := newNState a false
    let a := addTransition a i EPS i1
    let a := addTransition a i EPS i2
    let a := setAccepting a o true
    let a := setAccepting a o1 false
    let a := setAccepting a o2 false
    let a := addTransition a o1 EPS o
    let a := addTransition a o2 EPS o
    ((i, o), a)
  | .rep r, a =>
    let ((fi, fo), a) := compile r a
    let (i, a) := newNState a false
    let (o, a) := newNState a true
    let a := addTransition a i EPS fi
    let a := addTransition a i EPS o
    let a := setAccepting a fo false
    let a := addTransition a fo EPS o
    let a := addTransition a o EPS fi
    ((i, o), a)

/-! `NFAState.matches(string, visited)` with its two helper loops, the shared
`visited` set and the arena threaded explicitly (the JS set and maps are
mutated in place). `symLoopGo` is the loop over `string[0]`-transitions: each
target is tried with a fresh visited set and the remaining input. `epsLoopGo`
is the loop over ε-transitions with the unchanged input and the shared
visited set. The loops are parameterized by the recursive call at the next
fuel level, so the whole family is structurally recursive on the fuel; the
fuel is an embedding artifact and is proved sufficient for well-formed
arenas below. -/

/-- The `for (const nextState of symbolTransitions)` loop body, abstracted
over the recursive `matches` call. -/
def symLoopGo (mf : Arena → Nat → List Char → List Nat → Option (Bool × List Nat × Arena)) :
    Arena → List Nat → List Char → Option (Bool × Arena)
  | a, [], _ => some (false, a)
  | a, t :: ts, rest =>
    match mf a t rest [] with
    | none => none
    | some (true, _, a1) => some (true, a1)
    | some (false, _, a1) => symLoopGo mf a1 ts rest

/-- The two `for (const nextState of this.getTransitionsOnSymbol(EPSILON))`
loop bodies, abstracted over the recursive `matches` call. -/
def epsLoopGo (mf : Arena → Nat → List Char → List Nat → Option (Bool × List Nat × Arena)) :
    Arena → List Nat → List Char → List Nat → Option (Bool × List Nat × Arena)
  | a, [], _, vis => some (false, vis, a)
  | a, t :: ts, w, vis =>
    match mf a t w vis with
    | none => none
    | some (true, v1, a1) => some (true, v1, a1)
    | some (false, v1, a1) => epsLoopGo mf a1 ts w v1

/-- The body of `NFAState.matches`. -/
def matchesM : Nat → Arena → Nat → List Char → List Nat → Option (Bool × List Nat × Arena)
  | 0, _, _, _, _ => none
  | fuel + 1, a, s, w, vis =>
    if s ∈ vis then some (false, vis, a)
    else
      let vis1 := vis ++ [s]
      match w with
      | [] =>
        if acceptingAt a s then some (true, vis1, a)
        else
          let p := getTransOnSym a s EPS
          epsLoopGo (fun a1 t w1 v1 => matchesM fuel a1 t w1 v1) p.2 p.1 [] vis1
      | c :: rest =>
        let p := getTransOnSym a s c
        match symLoopGo (fun a1 t w1 v1 => matchesM fuel a1 t w1 v1) p.2 p.1 rest with
        | none => none
        | some (true, a2) => some (true, vis1, a2)
        | some (false, a2) =>
          let q := getTransOnSym a2 s EPS
          epsLoopGo (fun a1 t w1 v1 => matchesM fuel a1 t w1 v1) q.2 q.1 (c :: rest) vis1

/-- `symLoopGo` at one fuel level. -/
def symLoopM (fuel : Nat) : Arena → List Nat → List Char → Option (Bool × Arena) :=
  symLoopGo (fun a1 t w1 v1 => matchesM fuel a1 t w1 v1)

/-- `epsLoopGo` at one fuel level. -/
def epsLoopM (fuel : Nat) : Arena → List Nat → List Char → List Nat →
    Option (Bool × List Nat × Arena) :=
  epsLoopGo (fun a1 t w1 v1 => matchesM fuel a1 t w1 v1)

/-- Fuel sufficient for every run from an in-range state of a well-formed
arena (proved below). -/
def matchesFuel (a : Arena) (w : List Char) : Nat :=
  (w.length + 1) * (a.length + 1)

/-- `nfa.matches(string)`: the boolean outcome of the graph walk. -/
def nfaMatches (a : Arena) (s : Nat) (w : List Char) : Bool :=
  match matchesM (matchesFuel a w) a s w [] with
  | some r => r.1
  | none => false

/-- The arena as mutated by a `matches` run (empty target sets inserted for
the consumed symbols and for ε). -/
def matchesArena (a : Arena) (s : Nat) (w : List Char) : Arena :=
  match matchesM (matchesFuel a w) a s w [] with
  | some r => r.2.2
  | none => a

/-- `Set.add` driven union: append each element not already present,
preserving first-occurrence order (`nextClosure.forEach(s => closure.add(s))`,
`new Set(onSymbol)`…). -/
def addUnique (l : List Nat) (x : Nat) : List Nat :=
  if x ∈ l then l else l ++ [x]

/-- `Set` de-duplication of a list, keeping the first occurrence. -/
def dedupFirstGo {α : Type} [DecidableEq α] : List α → List α → List α
  | _, [] => []
  | seen, x :: xs => if x ∈ seen then dedupFirstGo seen xs
    else x :: dedupFirstGo (seen ++ [x]) xs

/-- `Set` de-duplication keeping first occurrences. -/
def dedupFirst {α : Type} [DecidableEq α] (l : List α) : List α :=
  dedupFirstGo [] l

/-- The `_epsilonClosure` memo fields of all states, threaded explicitly. -/
abbrev ECMemo := List (Nat × List Nat)

/-- Read a state's `_epsilonClosure` field. -/
def memoGet (m : ECMemo) (s : Nat) : Option (List Nat) :=
  (m.find? (fun p => p.1 == s)).map (·.2)

/-- Write a state's `_epsilonClosure` field (the JS mutations of the live
`Set` object are modeled as overwrites of the field). -/
def memoSet (m : ECMemo) (s : Nat) (v : List Nat) : ECMemo :=
  if (m.find? (fun p => p.1 == s)).isSome then
    m.map (fun p => if p.1 == s then (s, v) else p)
  else m ++ [(s, v)]

/-- `getEpsilonClosure()`. The source installs the memo field before
recursing (`const closure = this._epsilonClosure = new Set()`), so a cyclic
recursion can observe — and seal into a completed memo — a partial ancestor
closure. The `getTransitionsOnSymbol(EPSILON)` call inside also inserts an
empty ε entry when absent; that write is invisible to every observable used
by the table build (ε columns are deleted before the table is finished), so
the arena is read, not threaded, here. Fuel is an embedding artifact. -/
def ecRun (a : Arena) : Nat → Nat → ECMemo → ECMemo
  | 0, _, m => m
  | fuel + 1, s, m =>
    match memoGet m s with
    | some _ => m
    | none =>
      (transOn a s EPS).foldl
        (fun m t =>
          let cur := (memoGet m s).getD [s]
          if t ∈ cur then m
          else
            let m := memoSet m s (cur ++ [t])
            let m := ecRun a fuel t m
            let nc := (memoGet m t).getD [t]
            memoSet m s (nc.foldl addUnique ((memoGet m s).getD [s])))
        (memoSet m s [s])

/-- The recursive `visitState` traversal of `NFA.getTransitionTable`, reduced
to the discovery order it induces: a state is appended when first visited,
then its transition map is walked in insertion order, each target set in
insertion order. `state.number` is the 1-based position in this list. -/
def visitOrder (a : Arena) : Nat → Nat → List Nat → List Nat
  | 0, _, vis => vis
  | fuel + 1, s, vis =>
    if s ∈ vis then vis
    else
      (transList a s).foldl
        (fun v p => p.2.foldl (fun v t => visitOrder a fuel t v) v)
        (vis ++ [s])

/-- `state.number`: 1-based discovery index. -/
def numberOf (vis : List Nat) (s : Nat) : Nat :=
  vis.indexOf s + 1

/-- One row of the finished NFA table: the non-ε columns in map insertion
order (the literal ε entry is deleted), plus the `ε*` closure column. -/
structure NRow where
  syms : List (Char × List Nat)
  closure : List Nat
deriving DecidableEq, Repr

/-- The memoized products of `NFA.getTransitionTable` (with `getAlphabet` and
`getAcceptingStateNumbers`, which read them). -/
structure NfaData where
  vis : List Nat
  rows : List (Nat × NRow)
  alphabet : List Char
  acceptingNums : List Nat
deriving DecidableEq, Repr

/-- `NFA.getTransitionTable()` + `getAlphabet()` + accepting numbers.
Rows are keyed by `state.number`; JS object integer keys iterate ascending,
which is exactly discovery order. The closure column runs
`state.getEpsilonClosure()` over the visited states in discovery order with
the memo fields shared — so a closure truncated during an earlier state's
computation is stored as-is. The alphabet is every non-`ε*` column key over
all rows, first occurrence kept. -/
def buildNfaData (a : Arena) (entry : Nat) : NfaData :=
  let vis := visitOrder a (a.length + 1) entry []
  let memoFinal := vis.foldl (fun m s => ecRun a (a.length + 1) s m) []
  let rows := vis.map (fun s =>
    (numberOf vis s,
     { syms := ((transList a s).filter (fun p => p.1 ≠ EPS)).map
         (fun p => (p.1, p.2.map (numberOf vis))),
       closure := ((memoGet memoFinal s).getD [s]).map (numberOf vis) }))
  let alphabet := dedupFirst (rows.foldl (fun acc r => acc ++ r.2.syms.map Prod.fst) [])
  { vis := vis
    rows := rows
    alphabet := alphabet
    acceptingNums := (vis.filter (fun s => acceptingAt a s)).map (numberOf vis) }

/-- `array.join(',')` on a list of state numbers. -/
def joinNums (l : List Nat) : String :=
  String.intercalate "," (l.map toString)

/-- `nfaTable[n]`. -/
def nrowOf (nd : NfaData) (n : Nat) : Option NRow :=
  (nd.rows.find? (fun p => p.1 == n)).map (·.2)

/-- `row[symbol]` on an NFA row. -/
def rowSym (r : NRow) (c : Char) : Option (List Nat) :=
  (r.syms.find? (fun p => p.1 == c)).map (·.2)

/-- The inner loops of the subset construction for one popped id set `S` and
one symbol: union the ε-closures of every σ-successor of every id in `S`,
de-duplicated keeping first occurrence. Every id in `S` has a row (`S` is
made of table ids), and a target with no row is skipped
(`if (!nfaTable[nfaStateOnSymbol]) return`). -/
def dfaOnSymbol (nd : NfaData) (S : List Nat) (c : Char) : List Nat :=
  dedupFirst (S.foldl
    (fun acc st =>
      match nrowOf nd st with
      | none => acc
      | some r =>
        match rowSym r c with
        | none => acc
        | some targets =>
          targets.foldl
            (fun acc2 t =>
              match nrowOf nd t with
              | none => acc2
              | some rt => acc2 ++ rt.closure)
            acc)
    [])

/-- The DFA transition table: rows keyed by label strings. -/
abbrev DfaTable := List (String × List (Char × String))

/-- `dfaTable.hasOwnProperty(label)`. -/
def dfaHasRow (tbl : DfaTable) (l : String) : Bool :=
  (tbl.find? (fun p => p.1 == l)).isSome

/-- `dfaTable[label] = row` (overwrite in place, else append). -/
def tblSet (tbl : DfaTable) (l : String) (row : List (Char × String)) : DfaTable :=
  if dfaHasRow tbl l then tbl.map (fun p => if p.1 == l then (l, row) else p)
  else tbl ++ [(l, row)]

/-- `Set.add` on the accepting-label set. -/
def addLabel (ls : List String) (l : String) : List String :=
  if l ∈ ls then ls else ls ++ [l]

/-- The `getAlphabet().forEach(symbol => …)` body for the popped set `S`:
threads the row being built, the accepting-label set, and the labels
unshifted onto the worklist (most recent first). The `hasOwnProperty` check
runs against the table as it stood when `S` was popped (`tblInit`), since the
symbol loop itself only adds entries to the `S` row. -/
def dfaSymStep (nd : NfaData) (tblInit : DfaTable) (S : List Nat)
    (st : List (Char × String) × List String × List (List Nat)) (c : Char) :
    List (Char × String) × List String × List (List Nat) :=
  let onSym := dfaOnSymbol nd S c
  if onSym.length = 0 then st
  else
    let str := joinNums onSym
    let acc := if nd.acceptingNums.any (fun n => decide (n ∈ onSym)) then addLabel st.2.1 str
      else st.2.1
    let front := if dfaHasRow tblInit str then st.2.2 else onSym :: st.2.2
    (st.1 ++ [(c, str)], acc, front)

/-- The `while (worklist.length > 0)` loop of `DFA.getTransitionTable`.
`worklist.shift()` pops the front; `worklist.unshift(…)` pushes new sets to
the front. Fuel is an embedding artifact and is taken large enough for the
concrete machines examined here. -/
def dfaLoop (nd : NfaData) : Nat → List (List Nat) → DfaTable → List String →
    DfaTable × List String
  | 0, _, tbl, acc => (tbl, acc)
  | _ + 1, [], tbl, acc => (tbl, acc)
  | fuel + 1, S :: wl, tbl, acc =>
    let label := joinNums S
    let tblInit := tblSet tbl label []
    let step := nd.alphabet.foldl (dfaSymStep nd tblInit S) ([], acc, [])
    dfaLoop nd fuel (step.2.2 ++ wl) (tblSet tblInit label step.1) step.2.1

/-- The memoized products of `DFA.getTransitionTable`: the table, the
starting label, and the accepting-label set. The start set is the `ε*` column
of the first NFA row (`nfaTable[nfaStates[0]][EPSILON_CLOSURE]`). Note that
only labels produced as transition targets are ever tested against the NFA
accepting ids — the start label is never tested. -/
structure DfaData where
  table : DfaTable
  start : String
  acceptingLabels : List String
deriving DecidableEq, Repr

/-- `DFA.getTransitionTable` / `getStartingStateNumber` /
`getAcceptingStateNumbers`. -/
def dfaBuild (nd : NfaData) : DfaData :=
  let startIds := match nd.rows with
    | [] => []
    | r :: _ => r.2.closure
  let res := dfaLoop nd (2 ^ nd.rows.length + 1) [startIds] [] []
  { table := res.1, start := joinNums startIds, acceptingLabels := res.2 }

/-- `DFA.matches(string)`: walk the table from the starting label; a missing
transition (or the falsy empty label) rejects; after the input is consumed,
accept iff the final label is in the accepting-label set. A target label
always has a row, since every stored target is enqueued. -/
def dfaWalk (d : DfaData) : List Char → String → Bool
  | [], st => decide (st ∈ d.acceptingLabels)
  | c :: rest, st =>
    match d.table.find? (fun p => p.1 == st) with
    | none => false
    | some row =>
      match row.2.find? (fun p => p.1 == c) with
      | none => false
      | some p => if p.2 = "" then false else dfaWalk d rest p.2

/-- `DFA.matches`. -/
def dfaMatches (d : DfaData) (w : List Char) : Bool :=
  dfaWalk d w d.start

/-! A static view of the graph walk, for reasoning: `trFun`/`accFun` read the
arena functionally (a missing symbol entry reads as the empty target set,
exactly what `getTransitionsOnSymbol` returns before storing it). A `matches`
run only ever inserts empty target sets, so it never changes these two
functions; the bridge lemmas below make that precise and transport the
correctness proof to `matchesM` itself. -/

/-- The transition structure the arena denotes. -/
def trFun (a : Arena) : Nat → Char → List Nat :=
  fun s c => transOn a s c

/-- The accepting predicate the arena denotes. -/
def accFun (a : Arena) : Nat → Bool :=
  fun s => acceptingAt a s

section StaticMatcher

variable (tr : Nat → Char → List Nat) (ac : Nat → Bool)

/-- The symbol-transition loop over the static view, abstracted over the
recursive call. -/
def symLGo (mf : Nat → List Char → List Nat → Option (Bool × List Nat)) :
    List Nat → List Char → Option Bool
  | [], _ => some false
  | t :: ts, rest =>
    match mf t rest [] with
    | none => none
    | some (true, _) => some true
    | some (false, _) => symLGo mf ts rest

/-- The ε-transition loop over the static view, abstracted over the
recursive call. -/
def epsLGo (mf : Nat → List Char → List Nat → Option (Bool × List Nat)) :
    List Nat → List Char → List Nat → Option (Bool × List Nat)
  | [], _, vis => some (false, vis)
  | t :: ts, w, vis =>
    match mf t w vis with
    | none => none
    | some (true, v1) => some (true, v1)
    | some (false, v1) => epsLGo mf ts w v1

/-- `NFAState.matches` over the static view (same recursion as `matchesM`,
without the arena). -/
def ms : Nat → Nat → List Char → List Nat → Option (Bool × List Nat)
  | 0, _, _, _ => none
  | fuel + 1, s, w, vis =>
    if s ∈ vis then some (false, vis)
    else
      let vis1 := vis ++ [s]
      match w with
      | [] =>
        if ac s then some (true, vis1)
        else epsLGo (fun t w1 v1 => ms fuel t w1 v1) (tr s EPS) [] vis1
      | c :: rest =>
        match symLGo (fun t w1 v1 => ms fuel t w1 v1) (tr s c) rest with
        | none => none
        | some true => some (true, vis1)
        | some false => epsLGo (fun t w1 v1 => ms fuel t w1 v1) (tr s EPS) (c :: rest) vis1

/-- The symbol loop at one fuel level. -/
def symL (fuel : Nat) : List Nat → List Char → Option Bool :=
  symLGo (fun t w1 v1 => ms tr ac fuel t w1 v1)

/-- The ε loop at one fuel level. -/
def epsL (fuel : Nat) : List Nat → List Char → List Nat → Option (Bool × List Nat) :=
  epsLGo (fun t w1 v1 => ms tr ac fuel t w1 v1)

/-- Acceptance by some path: the input is consumed by interleaving
input-symbol edges (`step`) and ε edges (`eps`), ending at an accepting
state. This is the specification side of claim C6. -/
inductive NPath : Nat → List Char → Prop
  | done {s : Nat} : ac s = true → NPath s []
  | eps {s t : Nat} {w : List Char} : t ∈ tr s EPS → NPath t w → NPath s w
  | step {s t : Nat} {c : Char} {w : List Char} : t ∈ tr s c → NPath t w → NPath s (c :: w)

end StaticMatcher

/-- Well-formed transition structure: every target is below `n`. -/
def WFtr (n : Nat) (tr : Nat → Char → List Nat) : Prop :=
  ∀ s c t, t ∈ tr s c → t < n

/-- Every combinator-built arena is well formed in this sense. -/
def WFArena (a : Arena) : Prop :=
  WFtr a.length (trFun a)

/-- Decidable check that every stored transition target is in range; it
implies `WFArena` (proved below) and lets concrete arenas be checked by
evaluation. -/
def arenaTargetsBounded (a : Arena) : Bool :=
  a.all (fun st => st.trans.all (fun p => p.2.all (fun t => decide (t < a.length))))

/-- A state fails locally on `w`: with no input left it is not accepting;
with input `c :: rest` left, no `c`-successor accepts `rest` (at any fuel). -/
def LocalFail (tr : Nat → Char → List Nat) (ac : Nat → Bool) (x : Nat) : List Char → Prop
  | [] => ac x = false
  | c :: rest => ∀ t ∈ tr x c, ∀ g r, ms tr ac g t rest [] = some r → r.1 = false

/-- Forget the arena component of a `matchesM` result. -/
def projM (r : Bool × List Nat × Arena) : Bool × List Nat :=
  (r.1, r.2.1)

/-! Concrete machines and tables used by the claim theorems. -/

/-- The arena built by `rep(char('a'))` (the pattern `a*`). -/
def repAArena : Arena := (compile (RE.rep (RE.char 'a')) []).2

/-- The entry state of the `a*` fragment. -/
def repAEntry : Nat := (compile (RE.rep (RE.char 'a')) []).1.1

/-- NFA table data of `a*`. -/
def repANfa : NfaData := buildNfaData repAArena repAEntry

/-- DFA built from `a*` by subset construction. -/
def repADfa : DfaData := dfaBuild repANfa

/-- The arena built by `char('a')`. -/
def charAArena : Arena := (compile (RE.char 'a') []).2

/-- A four-state ε-graph: `A —ε→ B`, then `A —ε→ D`; `B —ε→ C`; `C —ε→ A`
(ids A=0, B=1, C=2, D=3). The cycle C→A closes while A is still being
computed. -/
def cycArena : Arena :=
  [⟨false, [(EPS, [1, 3])]⟩, ⟨false, [(EPS, [2])]⟩, ⟨false, [(EPS, [0])]⟩, ⟨false, []⟩]

/-- Memo state after `getEpsilonClosure()` on state A. -/
def cycMemo1 : ECMemo := ecRun cycArena 10 0 []

/-- Memo state after a subsequent `getEpsilonClosure()` on state C. -/
def cycMemo2 : ECMemo := ecRun cycArena 10 2 cycMemo1

/-- Minimization input `{1: {}, 2: {a: 1}, 3: {}}`: states 2 and 3 are both
accepting, 2 has an `a`-transition into the non-accepting class, 3 has none. -/
def c3Table : MinTable := [(1, []), (2, [("a", 1)]), (3, [])]

/-- Minimization input `{1: {}, 2: {}}` (no row for accepting id 3). -/
def c5Table : MinTable := [(1, []), (2, [])]

/-- Minimization input `{2: {}, 3: {}}` (only the accepting ids). -/
def c8Table : MinTable := [(2, []), (3, [])]

/-- The subgroup criterion in the words of claim C3: two ids belong together
iff on every alphabet symbol the classes of their transition targets are the
identical class, where absence of a transition matches only absence. -/
def specSameTargets (T : MinTable) (P : Partition) (s1 s2 : Nat) : Bool :=
  minAlphabet.all (fun sym =>
    match (tableLookup T s1).bind (fun r => rowLookup r sym),
          (tableLookup T s2).bind (fun r => rowLookup r sym) with
    | none, none => true
    | some t1, some t2 => (classIndexOf P t1).isSome && (classIndexOf P t1 == classIndexOf P t2)
    | _, _ => false)

section StaticLemmas

variable (tr : Nat → Char → List Nat) (ac : Nat → Bool)

lemma ms_zero (s : Nat) (w : List Char) (vis : List Nat) :
    ms tr ac 0 s w vis = none := by
  rfl

lemma ms_succ (f s : Nat) (w : List Char) (vis : List Nat) :
    ms tr ac (f + 1) s w vis =
      (if s ∈ vis then some (false, vis)
       else
        match w with
        | [] =>
          if ac s then some (true, vis ++ [s]) else epsL tr ac f (tr s EPS) [] (vis ++ [s])
        | c :: rest =>
          match symL tr ac f (tr s c) rest with
          | none => none
          | some true => some (true, vis ++ [s])
          | some false => epsL tr ac f (tr s EPS) (c :: rest) (vis ++ [s])) := by
  rfl

lemma symL_nil (f : Nat) (rest : List Char) :
    symL tr ac f [] rest = some false := by
  rfl

lemma symL_cons (f t : Nat) (ts : List Nat) (rest : List Char) :
    symL tr ac f (t :: ts) rest =
      (match ms tr ac f t rest [] with
       | none => none
       | some (true, _) => some true
       | some (false, _) => symL tr ac f ts rest) := by
  rfl

lemma epsL_nil (f : Nat) (w : List Char) (vis : List Nat) :
    epsL tr ac f [] w vis = some (false, vis) := by
  rfl

lemma epsL_cons (f t : Nat) (ts : List Nat) (w : List Char) (vis : List Nat) :
    epsL tr ac f (t :: ts) w vis =
      (match ms tr ac f t w vis with
       | none => none
       | some (true, v1) => some (true, v1)
       | some (false, v1) => epsL tr ac f ts w v1) := by
  rfl

end StaticLemmas

lemma matchesM_zero (a : Arena) (s : Nat) (w : List Char) (vis : List Nat) :
    matchesM 0 a s w vis = none := by
  rfl

lemma matchesM_succ (f : Nat) (a : Arena) (s : Nat) (w : List Char) (vis : List Nat) :
    matchesM (f + 1) a s w vis =
      (if s ∈ vis then some (false, vis, a)
       else
        match w with
        | [] =>
          if acceptingAt a s then some (true, vis ++ [s], a)
          else
            epsLoopM f (getTransOnSym a s EPS).2 (getTransOnSym a s EPS).1 [] (vis ++ [s])
        | c :: rest =>
          match symLoopM f (getTransOnSym a s c).2 (getTransOnSym a s c).1 rest with
          | none => none
          | some (true, a2) => some (true, vis ++ [s], a2)
          | some (false, a2) =>
            epsLoopM f (getTransOnSym a2 s EPS).2 (getTransOnSym a2 s EPS).1 (c :: rest)
              (vis ++ [s])) := by
  rfl

lemma symLoopM_nil (f : Nat) (a : Arena) (rest : List Char) :
    symLoopM f a [] rest = some (false, a) := by
  rfl

lemma symLoopM_cons (f : Nat) (a : Arena) (t : Nat) (ts : List Nat) (rest : List Char) :
    symLoopM f a (t :: ts) rest =
      (match matchesM f a t rest [] with
       | none => none
       | some (true, _, a1) => some (true, a1)
       | some (false, _, a1) => symLoopM f a1 ts rest) := by
  rfl

lemma epsLoopM_nil (f : Nat) (a : Arena) (w : List Char) (vis : List Nat) :
    epsLoopM f a [] w vis = some (false, vis, a) := by
  rfl

lemma epsLoopM_cons (f : Nat) (a : Arena) (t : Nat) (ts : List Nat) (w : List Char)
    (vis : List Nat) :
    epsLoopM f a (t :: ts) w vis =
      (match matchesM f a t w vis with
       | none => none
       | some (true, v1, a1) => some (true, v1, a1)
       | some (false, v1, a1) => epsLoopM f a1 ts w v1) := by
  rfl

section MatcherProofs

variable (tr : Nat → Char → List Nat) (ac : Nat → Bool)

lemma epsL_shape_of {f : Nat}
    (hms : ∀ s w vis b v', ms tr ac f s w vis = some (b, v') →
      (∃ ext, v' = vis ++ ext) ∧ s ∈ v') :
    ∀ (ts : List Nat) (w : List Char) (vis : List Nat) (b : Bool) (v' : List Nat),
      epsL tr ac f ts w vis = some (b, v') →
        (∃ ext, v' = vis ++ ext) ∧ (b = false → ∀ t ∈ ts, t ∈ v') := by
  intro ts
  induction ts with
  | nil =>
    intro w vis b v' h
    rw [epsL_nil] at h
    simp only [Option.some.injEq, Prod.mk.injEq] at h
    refine ⟨⟨[], by simp [← h.2]⟩, by simp⟩
  | cons t ts ih =>
    intro w vis b v' h
    rw [epsL_cons] at h
    cases hm : ms tr ac f t w vis with
    | none => simp only [hm] at h; exact Option.noConfusion h
    | some r =>
      obtain ⟨b1, v1⟩ := r
      cases b1 with
      | true =>
        simp only [hm, Option.some.injEq, Prod.mk.injEq] at h
        obtain ⟨hb, hv⟩ := h
        obtain ⟨⟨e1, he1⟩, _⟩ := hms _ _ _ _ _ hm
        exact ⟨⟨e1, by rw [← hv, he1]⟩, fun hfb => by rw [← hb] at hfb; cases hfb⟩
      | false =>
        simp only [hm] at h
        obtain ⟨⟨e1, he1⟩, hmem1⟩ := hms _ _ _ _ _ hm
        obtain ⟨⟨e2, he2⟩, hmem2⟩ := ih _ _ _ _ h
        refine ⟨⟨e1 ++ e2, by rw [he2, he1, List.append_assoc]⟩, ?_⟩
        intro hfb x hx
        rcases List.mem_cons.mp hx with rfl | hx
        · rw [he2]; exact List.mem_append_left _ hmem1
        · exact hmem2 hfb x hx

lemma ms_shape :
    ∀ (f s : Nat) (w : List Char) (vis : List Nat) (b : Bool) (v' : List Nat),
      ms tr ac f s w vis = some (b, v') → (∃ ext, v' = vis ++ ext) ∧ s ∈ v' := by
  intro f
  induction f with
  | zero => intro s w vis b v' h; rw [ms_zero] at h; cases h
  | succ f ih =>
    intro s w vis b v' h
    rw [ms_succ] at h
    by_cases hv : s ∈ vis
    · simp only [if_pos hv, Option.some.injEq, Prod.mk.injEq] at h
      exact ⟨⟨[], by simp [← h.2]⟩, by rw [← h.2]; exact hv⟩
    · simp only [if_neg hv] at h
      have hs1 : s ∈ vis ++ [s] := List.mem_append_right _ (List.mem_singleton.mpr rfl)
      cases w with
      | nil =>
        by_cases hacc : ac s = true
        · simp only [hacc, if_true, Option.some.injEq, Prod.mk.injEq] at h
          exact ⟨⟨[s], h.2.symm⟩, by rw [← h.2]; exact hs1⟩
        · simp only [if_neg hacc] at h
          obtain ⟨⟨e, he⟩, _⟩ := epsL_shape_of tr ac ih _ _ _ _ _ h
          refine ⟨⟨s :: e, by rw [he, List.append_assoc]; rfl⟩, ?_⟩
          rw [he]; exact List.mem_append_left _ hs1
      | cons c rest =>
        cases hsym : symL tr ac f (tr s c) rest with
        | none => simp only [hsym] at h; exact Option.noConfusion h
        | some sb =>
          cases sb with
          | true =>
            simp only [hsym, Option.some.injEq, Prod.mk.injEq] at h
            exact ⟨⟨[s], h.2.symm⟩, by rw [← h.2]; exact hs1⟩
          | false =>
            simp only [hsym] at h
            obtain ⟨⟨e, he⟩, _⟩ := epsL_shape_of tr ac ih _ _ _ _ _ h
            refine ⟨⟨s :: e, by rw [he, List.append_assoc]; rfl⟩, ?_⟩
            rw [he]; exact List.mem_append_left _ hs1

end MatcherProofs

section MatcherProofs2

variable (tr : Nat → Char → List Nat) (ac : Nat → Bool)

lemma epsL_inv_of {n f : Nat} (_hwf : WFtr n tr)
    (hms : ∀ s w vis b v', s < n → (∀ x ∈ vis, x < n) → vis.Nodup →
      ms tr ac f s w vis = some (b, v') → (∀ x ∈ v', x < n) ∧ v'.Nodup) :
    ∀ (ts : List Nat) (w : List Char) (vis : List Nat) (b : Bool) (v' : List Nat),
      (∀ t ∈ ts, t < n) → (∀ x ∈ vis, x < n) → vis.Nodup →
      epsL tr ac f ts w vis = some (b, v') → (∀ x ∈ v', x < n) ∧ v'.Nodup := by
  intro ts
  induction ts with
  | nil =>
    intro w vis b v' _ hb hnd h
    rw [epsL_nil] at h
    simp only [Option.some.injEq, Prod.mk.injEq] at h
    rw [← h.2]; exact ⟨hb, hnd⟩
  | cons t ts ih =>
    intro w vis b v' hts hb hnd h
    rw [epsL_cons] at h
    cases hm : ms tr ac f t w vis with
    | none => simp only [hm] at h; exact Option.noConfusion h
    | some r =>
      obtain ⟨b1, v1⟩ := r
      have ht : t < n := hts t (List.mem_cons_self t ts)
      have hv1 := hms _ _ _ _ _ ht hb hnd hm
      cases b1 with
      | true =>
        simp only [hm, Option.some.injEq, Prod.mk.injEq] at h
        rw [← h.2]; exact hv1
      | false =>
        simp only [hm] at h
        exact ih _ _ _ _ (fun x hx => hts x (List.mem_cons_of_mem t hx)) hv1.1 hv1.2 h

lemma ms_inv {n : Nat} (hwf : WFtr n tr) :
    ∀ (f s : Nat) (w : List Char) (vis : List Nat) (b : Bool) (v' : List Nat),
      s < n → (∀ x ∈ vis, x < n) → vis.Nodup →
      ms tr ac f s w vis = some (b, v') → (∀ x ∈ v', x < n) ∧ v'.Nodup := by
  intro f
  induction f with
  | zero => intro s w vis b v' _ _ _ h; rw [ms_zero] at h; exact Option.noConfusion h
  | succ f ih =>
    intro s w vis b v' hs hb hnd h
    rw [ms_succ] at h
    by_cases hv : s ∈ vis
    · simp only [if_pos hv, Option.some.injEq, Prod.mk.injEq] at h
      rw [← h.2]; exact ⟨hb, hnd⟩
    · simp only [if_neg hv] at h
      have hb1 : ∀ x ∈ vis ++ [s], x < n := by
        intro x hx
        rcases List.mem_append.mp hx with hx | hx
        · exact hb x hx
        · rw [List.mem_singleton.mp hx]; exact hs
      have hnd1 : (vis ++ [s]).Nodup := by
        rw [List.nodup_append]
        exact ⟨hnd, List.nodup_singleton s, by
          intro x hx hx'
          rw [List.mem_singleton.mp hx'] at hx
          exact hv hx⟩
      have ihc : ∀ s' w' vis' b' v'', s' < n → (∀ x ∈ vis', x < n) → vis'.Nodup →
          ms tr ac f s' w' vis' = some (b', v'') → (∀ x ∈ v'', x < n) ∧ v''.Nodup := by
        intro s' w' vis' b' v'' h1 h2 h3 h4; exact ih s' w' vis' b' v'' h1 h2 h3 h4
      cases w with
      | nil =>
        by_cases hacc : ac s = true
        · simp only [hacc, if_true, Option.some.injEq, Prod.mk.injEq] at h
          rw [← h.2]; exact ⟨hb1, hnd1⟩
        · simp only [if_neg hacc] at h
          exact epsL_inv_of tr ac hwf ihc _ _ _ _ _
            (fun t' ht' => hwf s EPS t' ht') hb1 hnd1 h
      | cons c rest =>
        cases hsym : symL tr ac f (tr s c) rest with
        | none => simp only [hsym] at h; exact Option.noConfusion h
        | some sb =>
          cases sb with
          | true =>
            simp only [hsym, Option.some.injEq, Prod.mk.injEq] at h
            rw [← h.2]; exact ⟨hb1, hnd1⟩
          | false =>
            simp only [hsym] at h
            exact epsL_inv_of tr ac hwf ihc _ _ _ _ _
              (fun t' ht' => hwf s EPS t' ht') hb1 hnd1 h

lemma symL_mono_of {f : Nat}
    (hms : ∀ s w vis r, ms tr ac f s w vis = some r → ms tr ac (f + 1) s w vis = some r) :
    ∀ (ts : List Nat) (rest : List Char) (b : Bool),
      symL tr ac f ts rest = some b → symL tr ac (f + 1) ts rest = some b := by
  intro ts
  induction ts with
  | nil => intro rest b h; rw [symL_nil] at h ⊢; exact h
  | cons t ts ih =>
    intro rest b h
    rw [symL_cons] at h ⊢
    cases hm : ms tr ac f t rest [] with
    | none => simp only [hm] at h; exact Option.noConfusion h
    | some r =>
      obtain ⟨b1, v1⟩ := r
      rw [hms _ _ _ _ hm]
      cases b1 with
      | true => simp only [hm] at h; exact h
      | false => simp only [hm] at h; exact ih _ _ h

lemma epsL_mono_of {f : Nat}
    (hms : ∀ s w vis r, ms tr ac f s w vis = some r → ms tr ac (f + 1) s w vis = some r) :
    ∀ (ts : List Nat) (w : List Char) (vis : List Nat) (r : Bool × List Nat),
      epsL tr ac f ts w vis = some r → epsL tr ac (f + 1) ts w vis = some r := by
  intro ts
  induction ts with
  | nil => intro w vis r h; rw [epsL_nil] at h ⊢; exact h
  | cons t ts ih =>
    intro w vis r h
    rw [epsL_cons] at h ⊢
    cases hm : ms tr ac f t w vis with
    | none => simp only [hm] at h; exact Option.noConfusion h
    | some r1 =>
      obtain ⟨b1, v1⟩ := r1
      rw [hms _ _ _ _ hm]
      cases b1 with
      | true => simp only [hm] at h; exact h
      | false => simp only [hm] at h; exact ih _ _ _ h

lemma ms_mono_succ :
    ∀ (f s : Nat) (w : List Char) (vis : List Nat) (r : Bool × List Nat),
      ms tr ac f s w vis = some r → ms tr ac (f + 1) s w vis = some r := by
  intro f
  induction f with
  | zero => intro s w vis r h; rw [ms_zero] at h; exact Option.noConfusion h
  | succ f ih =>
    intro s w vis r h
    rw [ms_succ] at h
    rw [ms_succ]
    by_cases hv : s ∈ vis
    · simp only [if_pos hv] at h ⊢; exact h
    · simp only [if_neg hv] at h ⊢
      cases w with
      | nil =>
        by_cases hacc : ac s = true
        · simp only [hacc, if_true] at h ⊢; exact h
        · simp only [if_neg hacc] at h ⊢
          exact epsL_mono_of tr ac ih _ _ _ _ h
      | cons c rest =>
        cases hsym : symL tr ac f (tr s c) rest with
        | none => simp only [hsym] at h; exact Option.noConfusion h
        | some sb =>
          have hsym' := symL_mono_of tr ac ih _ _ _ hsym
          cases sb with
          | true => simp only [hsym] at h; simp only [hsym']; exact h
          | false =>
            simp only [hsym] at h
            simp only [hsym']
            exact epsL_mono_of tr ac ih _ _ _ _ h

lemma ms_mono_le {f g : Nat} (hfg : f ≤ g) :
    ∀ {s : Nat} {w : List Char} {vis : List Nat} {r : Bool × List Nat},
      ms tr ac f s w vis = some r → ms tr ac g s w vis = some r := by
  induction g, hfg using Nat.le_induction with
  | base => intro s w vis r h; exact h
  | succ g _ ih => intro s w vis r h; exact ms_mono_succ tr ac g s w vis r (ih h)

lemma ms_agree {f g s : Nat} {w : List Char} {vis : List Nat} {r r' : Bool × List Nat}
    (h1 : ms tr ac f s w vis = some r) (h2 : ms tr ac g s w vis = some r') : r = r' := by
  rcases Nat.le_total f g with hle | hle
  · have := ms_mono_le tr ac hle h1
    rw [this] at h2; exact Option.some.inj h2
  · have := ms_mono_le tr ac hle h2
    rw [this] at h1; exact (Option.some.inj h1).symm

end MatcherProofs2

section MatcherProofs3

variable (tr : Nat → Char → List Nat) (ac : Nat → Bool)

lemma symL_sound_of {f : Nat}
    (hms : ∀ s w vis v', ms tr ac f s w vis = some (true, v') → NPath tr ac s w) :
    ∀ (ts : List Nat) (rest : List Char),
      symL tr ac f ts rest = some true → ∃ t ∈ ts, NPath tr ac t rest := by
  intro ts
  induction ts with
  | nil => intro rest h; rw [symL_nil] at h; simp at h
  | cons t ts ih =>
    intro rest h
    rw [symL_cons] at h
    cases hm : ms tr ac f t rest [] with
    | none => simp only [hm] at h; exact Option.noConfusion h
    | some r =>
      obtain ⟨b1, v1⟩ := r
      cases b1 with
      | true => exact ⟨t, List.mem_cons_self t ts, hms _ _ _ _ hm⟩
      | false =>
        simp only [hm] at h
        obtain ⟨t', ht', hp⟩ := ih _ h
        exact ⟨t', List.mem_cons_of_mem t ht', hp⟩

lemma epsL_sound_of {f : Nat}
    (hms : ∀ s w vis v', ms tr ac f s w vis = some (true, v') → NPath tr ac s w) :
    ∀ (ts : List Nat) (w : List Char) (vis v' : List Nat),
      epsL tr ac f ts w vis = some (true, v') → ∃ t ∈ ts, NPath tr ac t w := by
  intro ts
  induction ts with
  | nil => intro w vis v' h; rw [epsL_nil] at h; simp at h
  | cons t ts ih =>
    intro w vis v' h
    rw [epsL_cons] at h
    cases hm : ms tr ac f t w vis with
    | none => simp only [hm] at h; exact Option.noConfusion h
    | some r =>
      obtain ⟨b1, v1⟩ := r
      cases b1 with
      | true => exact ⟨t, List.mem_cons_self t ts, hms _ _ _ _ hm⟩
      | false =>
        simp only [hm] at h
        obtain ⟨t', ht', hp⟩ := ih _ _ _ h
        exact ⟨t', List.mem_cons_of_mem t ht', hp⟩

lemma ms_sound :
    ∀ (f s : Nat) (w : List Char) (vis v' : List Nat),
      ms tr ac f s w vis = some (true, v') → NPath tr ac s w := by
  intro f
  induction f with
  | zero => intro s w vis v' h; rw [ms_zero] at h; exact Option.noConfusion h
  | succ f ih =>
    intro s w vis v' h
    rw [ms_succ] at h
    by_cases hv : s ∈ vis
    · simp only [if_pos hv, Option.some.injEq, Prod.mk.injEq] at h
      exact absurd h.1.symm (by simp)
    · simp only [if_neg hv] at h
      cases w with
      | nil =>
        by_cases hacc : ac s = true
        · exact NPath.done hacc
        · simp only [if_neg hacc] at h
          obtain ⟨t, ht, hp⟩ := epsL_sound_of tr ac ih _ _ _ _ h
          exact NPath.eps ht hp
      | cons c rest =>
        cases hsym : symL tr ac f (tr s c) rest with
        | none => simp only [hsym] at h; exact Option.noConfusion h
        | some sb =>
          cases sb with
          | true =>
            obtain ⟨t, ht, hp⟩ := symL_sound_of tr ac ih _ _ hsym
            exact NPath.step ht hp
          | false =>
            simp only [hsym] at h
            obtain ⟨t, ht, hp⟩ := epsL_sound_of tr ac ih _ _ _ _ h
            exact NPath.eps ht hp

lemma length_le_of_nodup_bounded {l : List Nat} {n : Nat}
    (hnd : l.Nodup) (hb : ∀ x ∈ l, x < n) : l.length ≤ n := by
  have h1 : l.toFinset.card = l.length := List.toFinset_card_of_nodup hnd
  have h2 : l.toFinset ⊆ Finset.range n := by
    intro x hx
    rw [Finset.mem_range]
    exact hb x (List.mem_toFinset.mp hx)
  have h3 := Finset.card_le_card h2
  rw [h1, Finset.card_range] at h3
  exact h3

end MatcherProofs3

section MatcherProofs4

variable (tr : Nat → Char → List Nat) (ac : Nat → Bool)

lemma symL_total_of {n f : Nat}
    (hms : ∀ s w vis, s < n → (∀ x ∈ vis, x < n) → vis.Nodup →
      w.length * (n + 1) + (n + 1 - vis.length) ≤ f → (ms tr ac f s w vis).isSome) :
    ∀ (ts : List Nat) (rest : List Char), (∀ t ∈ ts, t < n) →
      rest.length * (n + 1) + (n + 1) ≤ f → (symL tr ac f ts rest).isSome := by
  intro ts
  induction ts with
  | nil => intro rest _ _; rw [symL_nil]; rfl
  | cons t ts ih =>
    intro rest hts hf
    rw [symL_cons]
    have h1 : (ms tr ac f t rest []).isSome := by
      apply hms t rest [] (hts t (List.mem_cons_self t ts)) (by simp) List.nodup_nil
      simpa using hf
    cases hm : ms tr ac f t rest [] with
    | none => rw [hm] at h1; exact absurd h1 (by simp)
    | some r =>
      obtain ⟨b1, v1⟩ := r
      cases b1 with
      | true => simp only [hm]; rfl
      | false =>
        simp only [hm]
        exact ih rest (fun x hx => hts x (List.mem_cons_of_mem t hx)) hf

lemma epsL_total_of {n f : Nat} (hwf : WFtr n tr)
    (hms : ∀ s w vis, s < n → (∀ x ∈ vis, x < n) → vis.Nodup →
      w.length * (n + 1) + (n + 1 - vis.length) ≤ f → (ms tr ac f s w vis).isSome) :
    ∀ (ts : List Nat) (w : List Char) (vis : List Nat), (∀ t ∈ ts, t < n) →
      (∀ x ∈ vis, x < n) → vis.Nodup →
      w.length * (n + 1) + (n + 1 - vis.length) ≤ f → (epsL tr ac f ts w vis).isSome := by
  intro ts
  induction ts with
  | nil => intro w vis _ _ _ _; rw [epsL_nil]; rfl
  | cons t ts ih =>
    intro w vis hts hb hnd hf
    rw [epsL_cons]
    have ht : t < n := hts t (List.mem_cons_self t ts)
    have h1 : (ms tr ac f t w vis).isSome := hms t w vis ht hb hnd hf
    cases hm : ms tr ac f t w vis with
    | none => rw [hm] at h1; exact absurd h1 (by simp)
    | some r =>
      obtain ⟨b1, v1⟩ := r
      cases b1 with
      | true => simp only [hm]; rfl
      | false =>
        simp only [hm]
        have hinv := ms_inv tr ac hwf f t w vis false v1 ht hb hnd hm
        obtain ⟨⟨e, he⟩, _⟩ := ms_shape tr ac f t w vis false v1 hm
        have hlen : vis.length ≤ v1.length := by rw [he]; simp
        have hμ : w.length * (n + 1) + (n + 1 - v1.length) ≤ f := by
          refine le_trans ?_ hf
          omega
        exact ih w v1 (fun x hx => hts x (List.mem_cons_of_mem t hx)) hinv.1 hinv.2 hμ

lemma ms_total {n : Nat} (hwf : WFtr n tr) :
    ∀ (f s : Nat) (w : List Char) (vis : List Nat), s < n → (∀ x ∈ vis, x < n) → vis.Nodup →
      w.length * (n + 1) + (n + 1 - vis.length) ≤ f → (ms tr ac f s w vis).isSome := by
  intro f
  induction f with
  | zero =>
    intro s w vis _ hb hnd hf
    exfalso
    have hlen : vis.length ≤ n := length_le_of_nodup_bounded hnd hb
    omega
  | succ f ih =>
    intro s w vis hs hb hnd hf
    rw [ms_succ]
    by_cases hv : s ∈ vis
    · simp only [if_pos hv]; rfl
    · simp only [if_neg hv]
      have hlen : vis.length ≤ n := length_le_of_nodup_bounded hnd hb
      have hb1 : ∀ x ∈ vis ++ [s], x < n := by
        intro x hx
        rcases List.mem_append.mp hx with hx | hx
        · exact hb x hx
        · rw [List.mem_singleton.mp hx]; exact hs
      have hnd1 : (vis ++ [s]).Nodup := by
        rw [List.nodup_append]
        exact ⟨hnd, List.nodup_singleton s, by
          intro x hx hx'
          rw [List.mem_singleton.mp hx'] at hx
          exact hv hx⟩
      have hlen1 : (vis ++ [s]).length = vis.length + 1 := by simp
      cases w with
      | nil =>
        by_cases hacc : ac s = true
        · simp only [hacc, if_true]; rfl
        · simp only [if_neg hacc]
          apply epsL_total_of tr ac hwf ih _ _ _ (fun t ht => hwf s EPS t ht) hb1 hnd1
          have hf' : [].length * (n + 1) + (n + 1 - vis.length) ≤ f + 1 := hf
          simp only [List.length_nil, Nat.zero_mul, Nat.zero_add] at hf' ⊢
          rw [hlen1]
          omega
      | cons c rest =>
        have hmul : (rest.length + 1) * (n + 1) = rest.length * (n + 1) + (n + 1) := by ring
        have hf' : (rest.length + 1) * (n + 1) + (n + 1 - vis.length) ≤ f + 1 := by
          simpa using hf
        have hsymtot : (symL tr ac f (tr s c) rest).isSome := by
          apply symL_total_of tr ac ih _ _ (fun t ht => hwf s c t ht)
          omega
        cases hsym : symL tr ac f (tr s c) rest with
        | none => rw [hsym] at hsymtot; exact absurd hsymtot (by simp)
        | some sb =>
          cases sb with
          | true => simp only [hsym]; rfl
          | false =>
            simp only [hsym]
            apply epsL_total_of tr ac hwf ih _ _ _ (fun t ht => hwf s EPS t ht) hb1 hnd1
            have hlist : (c :: rest).length * (n + 1) = (rest.length + 1) * (n + 1) := by simp
            rw [hlist, hlen1]
            omega

end MatcherProofs4

section MatcherProofs5

variable (tr : Nat → Char → List Nat) (ac : Nat → Bool)

lemma symL_false :
    ∀ (f : Nat) (ts : List Nat) (rest : List Char), symL tr ac f ts rest = some false →
      ∀ t ∈ ts, ∃ v'', ms tr ac f t rest [] = some (false, v'') := by
  intro f ts
  induction ts with
  | nil => intro rest _ t ht; exact absurd ht (List.not_mem_nil t)
  | cons t ts ih =>
    intro rest h t' ht'
    rw [symL_cons] at h
    cases hm : ms tr ac f t rest [] with
    | none => simp only [hm] at h; exact Option.noConfusion h
    | some r =>
      obtain ⟨b1, v1⟩ := r
      cases b1 with
      | true => simp only [hm] at h; exact absurd (Option.some.inj h) (by simp)
      | false =>
        simp only [hm] at h
        rcases List.mem_cons.mp ht' with rfl | ht'
        · exact ⟨v1, hm⟩
        · exact ih _ h t' ht'

lemma epsL_fail_of {f : Nat}
    (hms : ∀ s w vis v', ms tr ac f s w vis = some (false, v') →
      ∀ x ∈ v', x ∈ vis ∨ (LocalFail tr ac x w ∧ ∀ t ∈ tr x EPS, t ∈ v')) :
    ∀ (ts : List Nat) (w : List Char) (vis v' : List Nat),
      epsL tr ac f ts w vis = some (false, v') →
        ∀ x ∈ v', x ∈ vis ∨ (LocalFail tr ac x w ∧ ∀ t ∈ tr x EPS, t ∈ v') := by
  intro ts
  induction ts with
  | nil =>
    intro w vis v' h x hx
    rw [epsL_nil] at h
    simp only [Option.some.injEq, Prod.mk.injEq] at h
    rw [← h.2] at hx
    exact Or.inl hx
  | cons t ts ih =>
    intro w vis v' h x hx
    rw [epsL_cons] at h
    cases hm : ms tr ac f t w vis with
    | none => simp only [hm] at h; exact Option.noConfusion h
    | some r =>
      obtain ⟨b1, v1⟩ := r
      cases b1 with
      | true => simp only [hm] at h; exact absurd (Option.some.inj h) (by simp)
      | false =>
        simp only [hm] at h
        -- v' extends v1, which extends vis
        obtain ⟨⟨e2, he2⟩, _⟩ := epsL_shape_of tr ac (ms_shape tr ac f) _ _ _ _ _ h
        rcases ih _ _ _ h x hx with hx1 | hfail
        · rcases hms _ _ _ _ hm x hx1 with hxv | hfail1
          · exact Or.inl hxv
          · refine Or.inr ⟨hfail1.1, ?_⟩
            intro t' ht'
            rw [he2]
            exact List.mem_append_left _ (hfail1.2 t' ht')
        · exact Or.inr hfail

lemma ms_fail :
    ∀ (f s : Nat) (w : List Char) (vis v' : List Nat),
      ms tr ac f s w vis = some (false, v') →
        ∀ x ∈ v', x ∈ vis ∨ (LocalFail tr ac x w ∧ ∀ t ∈ tr x EPS, t ∈ v') := by
  intro f
  induction f with
  | zero => intro s w vis v' h; rw [ms_zero] at h; exact Option.noConfusion h
  | succ f ih =>
    intro s w vis v' h
    rw [ms_succ] at h
    by_cases hv : s ∈ vis
    · simp only [if_pos hv, Option.some.injEq, Prod.mk.injEq] at h
      intro x hx
      rw [← h.2] at hx
      exact Or.inl hx
    · simp only [if_neg hv] at h
      cases w with
      | nil =>
        by_cases hacc : ac s = true
        · simp only [hacc, if_true, Option.some.injEq, Prod.mk.injEq] at h
          exact absurd h.1.symm (by simp)
        · simp only [if_neg hacc] at h
          intro x hx
          have hsub : ∀ y ∈ vis ++ [s], y ∈ vis ∨ y = s := by
            intro y hy
            rcases List.mem_append.mp hy with hy | hy
            · exact Or.inl hy
            · exact Or.inr (List.mem_singleton.mp hy)
          obtain ⟨⟨e, he⟩, hts⟩ := epsL_shape_of tr ac (ms_shape tr ac f) _ _ _ _ _ h
          rcases epsL_fail_of tr ac ih _ _ _ _ h x hx with hx1 | hfail
          · rcases hsub x hx1 with hxv | rfl
            · exact Or.inl hxv
            · refine Or.inr ⟨by simpa [LocalFail] using hacc, ?_⟩
              exact hts rfl
          · exact Or.inr hfail
      | cons c rest =>
        cases hsym : symL tr ac f (tr s c) rest with
        | none => simp only [hsym] at h; exact Option.noConfusion h
        | some sb =>
          cases sb with
          | true =>
            simp only [hsym, Option.some.injEq, Prod.mk.injEq] at h
            exact absurd h.1.symm (by simp)
          | false =>
            simp only [hsym] at h
            intro x hx
            have hsub : ∀ y ∈ vis ++ [s], y ∈ vis ∨ y = s := by
              intro y hy
              rcases List.mem_append.mp hy with hy | hy
              · exact Or.inl hy
              · exact Or.inr (List.mem_singleton.mp hy)
            obtain ⟨⟨e, he⟩, hts⟩ := epsL_shape_of tr ac (ms_shape tr ac f) _ _ _ _ _ h
            rcases epsL_fail_of tr ac ih _ _ _ _ h x hx with hx1 | hfail
            · rcases hsub x hx1 with hxv | rfl
              · exact Or.inl hxv
              · refine Or.inr ⟨?_, hts rfl⟩
                simp only [LocalFail]
                intro t ht g r hgr
                obtain ⟨v'', hm⟩ := symL_false tr ac f _ _ hsym t ht
                have := ms_agree tr ac hgr hm
                rw [this]
            · exact Or.inr hfail

end MatcherProofs5

section MatcherProofs6

variable (tr : Nat → Char → List Nat) (ac : Nat → Bool)

lemma ms_complete {n : Nat} (hwf : WFtr n tr) :
    ∀ (L : Nat) (w : List Char), w.length = L → ∀ (s : Nat), NPath tr ac s w →
      ∀ (g : Nat) (v' : List Nat), ms tr ac g s w [] ≠ some (false, v') := by
  intro L
  induction L using Nat.strong_induction_on with
  | _ L ihL =>
    intro w hL s hp g v' hms
    have hsmem : s ∈ v' := (ms_shape tr ac g s w [] false v' hms).2
    have hfail := ms_fail tr ac g s w [] v' hms
    have hinfo : ∀ x ∈ v', LocalFail tr ac x w ∧ ∀ t ∈ tr x EPS, t ∈ v' := by
      intro x hx
      rcases hfail x hx with hx0 | h
      · exact absurd hx0 (List.not_mem_nil x)
      · exact h
    have key : ∀ (x : Nat) (w' : List Char), NPath tr ac x w' → w' = w → x ∈ v' → False := by
      intro x w' hp'
      induction hp' with
      | @done x' hacx =>
        intro hw hx
        subst hw
        have hlf := (hinfo _ hx).1
        simp only [LocalFail] at hlf
        rw [hlf] at hacx
        exact Bool.noConfusion hacx
      | @eps x' t' w'' htr hpt ihp =>
        intro hw hx
        exact ihp hw ((hinfo _ hx).2 _ htr)
      | @step x' t' c' w'' htr hpt ihp =>
        intro hw hx
        subst hw
        have hlf := (hinfo _ hx).1
        simp only [LocalFail] at hlf
        have htn : t' < n := hwf _ _ _ htr
        have htot := ms_total tr ac hwf (w''.length * (n + 1) + (n + 1)) t' w'' []
          htn (by simp) List.nodup_nil (by simp)
        cases hm2 : ms tr ac (w''.length * (n + 1) + (n + 1)) t' w'' [] with
        | none => rw [hm2] at htot; exact absurd htot (by simp)
        | some r =>
          obtain ⟨rb, rv⟩ := r
          cases rb with
          | true =>
            have := hlf t' htr _ _ hm2
            exact Bool.noConfusion this
          | false =>
            have hlt : w''.length < L := by
              rw [← hL]; simp
            exact ihL w''.length hlt w'' rfl t' hpt _ rv hm2
    exact key s w hp rfl hsmem

lemma ms_iff {n : Nat} (hwf : WFtr n tr) (s : Nat) (w : List Char) (hs : s < n) :
    (∃ v', ms tr ac ((w.length + 1) * (n + 1)) s w [] = some (true, v')) ↔ NPath tr ac s w := by
  constructor
  · rintro ⟨v', h⟩
    exact ms_sound tr ac _ _ _ _ _ h
  · intro hp
    have htot := ms_total tr ac hwf ((w.length + 1) * (n + 1)) s w [] hs (by simp)
      List.nodup_nil (by simp [Nat.succ_mul])
    cases hm : ms tr ac ((w.length + 1) * (n + 1)) s w [] with
    | none => rw [hm] at htot; exact absurd htot (by simp)
    | some r =>
      obtain ⟨rb, rv⟩ := r
      cases rb with
      | true => exact ⟨rv, rfl⟩
      | false => exact absurd hm (ms_complete tr ac hwf w.length w rfl s hp _ rv)

end MatcherProofs6

section BridgeProofs

lemma stateAt_set (a : Arena) (s : Nat) (v : NState) (s' : Nat) :
    stateAt (a.set s v) s' = if s = s' ∧ s < a.length then v else stateAt a s' := by
  unfold stateAt
  rw [List.get?_eq_getElem?, List.get?_eq_getElem?, List.getElem?_set]
  by_cases h1 : s = s'
  · subst h1
    by_cases h2 : s < a.length
    · simp [h2]
    · simp [h2, List.getElem?_eq_none (Nat.le_of_not_lt h2)]
  · simp [h1]

lemma transList_setTrans (a : Arena) (s : Nat) (tl : List (Char × List Nat)) (s' : Nat) :
    transList (setTrans a s tl) s' = if s = s' ∧ s < a.length then tl else transList a s' := by
  unfold transList setTrans
  rw [stateAt_set]
  by_cases h : s = s' ∧ s < a.length
  · rw [if_pos h, if_pos h]
  · rw [if_neg h, if_neg h]

lemma acceptingAt_setTrans (a : Arena) (s : Nat) (tl : List (Char × List Nat)) (s' : Nat) :
    acceptingAt (setTrans a s tl) s' = acceptingAt a s' := by
  unfold acceptingAt setTrans
  rw [stateAt_set]
  by_cases h : s = s' ∧ s < a.length
  · rw [if_pos h]
    obtain ⟨rfl, _⟩ := h
    rfl
  · rw [if_neg h]

lemma getTransOnSym_fst (a : Arena) (s : Nat) (c : Char) :
    (getTransOnSym a s c).1 = trFun a s c := by
  unfold getTransOnSym trFun transOn
  cases hf : (transList a s).find? (fun p => p.1 == c) with
  | some p => simp
  | none => simp

lemma trFun_getTransOnSym (a : Arena) (s : Nat) (c : Char) :
    trFun (getTransOnSym a s c).2 = trFun a := by
  funext s' c'
  unfold getTransOnSym
  cases hf : (transList a s).find? (fun p => p.1 == c) with
  | some p => rfl
  | none =>
    show trFun (setTrans a s (setKey (transList a s) c [])) s' c' = trFun a s' c'
    have hkey : setKey (transList a s) c [] = transList a s ++ [(c, [])] := by
      unfold setKey
      rw [hf]
      simp
    unfold trFun transOn
    rw [transList_setTrans, hkey]
    by_cases h : s = s' ∧ s < a.length
    · rw [if_pos h]
      obtain ⟨rfl, _⟩ := h
      rw [List.find?_append]
      by_cases hcc : c = c'
      · subst hcc
        rw [hf]
        simp
      · have h2 : List.find? (fun p : Char × List Nat => p.1 == c') [(c, [])] = none := by
          simp [hcc]
        rw [h2, Option.or_none]
    · rw [if_neg h]

lemma accFun_getTransOnSym (a : Arena) (s : Nat) (c : Char) :
    accFun (getTransOnSym a s c).2 = accFun a := by
  funext s'
  unfold getTransOnSym
  cases hf : (transList a s).find? (fun p => p.1 == c) with
  | some p => rfl
  | none =>
    show accFun (setTrans a s (setKey (transList a s) c [])) s' = accFun a s'
    unfold accFun
    rw [acceptingAt_setTrans]

end BridgeProofs

section BridgeProofs2

lemma bridge_sym_of {f : Nat}
    (hms : ∀ (a : Arena) (s : Nat) (w : List Char) (vis : List Nat),
      (matchesM f a s w vis).map projM = ms (trFun a) (accFun a) f s w vis ∧
      ∀ r, matchesM f a s w vis = some r →
        trFun r.2.2 = trFun a ∧ accFun r.2.2 = accFun a) :
    ∀ (a : Arena) (ts : List Nat) (rest : List Char),
      (symLoopM f a ts rest).map (·.1) = symL (trFun a) (accFun a) f ts rest ∧
      ∀ r, symLoopM f a ts rest = some r → trFun r.2 = trFun a ∧ accFun r.2 = accFun a := by
  intro a ts
  induction ts generalizing a with
  | nil =>
    intro rest
    refine ⟨by rw [symLoopM_nil, symL_nil]; rfl, ?_⟩
    intro r hr
    rw [symLoopM_nil] at hr
    obtain rfl := Option.some.inj hr
    exact ⟨rfl, rfl⟩
  | cons t ts ih =>
    intro rest
    have hmt := hms a t rest []
    constructor
    · rw [symLoopM_cons, symL_cons, ← hmt.1]
      cases hm : matchesM f a t rest [] with
      | none => rfl
      | some r =>
        obtain ⟨b1, v1, a1⟩ := r
        have hpres := hmt.2 _ hm
        cases b1 with
        | true => rfl
        | false =>
          show (symLoopM f a1 ts rest).map (·.1) = symL (trFun a) (accFun a) f ts rest
          rw [(ih a1 rest).1, hpres.1, hpres.2]
    · intro r hr
      rw [symLoopM_cons] at hr
      cases hm : matchesM f a t rest [] with
      | none => rw [hm] at hr; exact Option.noConfusion hr
      | some r1 =>
        obtain ⟨b1, v1, a1⟩ := r1
        have hpres := hmt.2 _ hm
        cases b1 with
        | true =>
          simp only [hm] at hr
          obtain rfl := Option.some.inj hr
          exact hpres
        | false =>
          simp only [hm] at hr
          have := (ih a1 rest).2 r hr
          rw [hpres.1] at this
          rw [hpres.2] at this
          exact this

lemma bridge_eps_of {f : Nat}
    (hms : ∀ (a : Arena) (s : Nat) (w : List Char) (vis : List Nat),
      (matchesM f a s w vis).map projM = ms (trFun a) (accFun a) f s w vis ∧
      ∀ r, matchesM f a s w vis = some r →
        trFun r.2.2 = trFun a ∧ accFun r.2.2 = accFun a) :
    ∀ (a : Arena) (ts : List Nat) (w : List Char) (vis : List Nat),
      (epsLoopM f a ts w vis).map projM = epsL (trFun a) (accFun a) f ts w vis ∧
      ∀ r, epsLoopM f a ts w vis = some r →
        trFun r.2.2 = trFun a ∧ accFun r.2.2 = accFun a := by
  intro a ts
  induction ts generalizing a with
  | nil =>
    intro w vis
    refine ⟨by rw [epsLoopM_nil, epsL_nil]; rfl, ?_⟩
    intro r hr
    rw [epsLoopM_nil] at hr
    obtain rfl := Option.some.inj hr
    exact ⟨rfl, rfl⟩
  | cons t ts ih =>
    intro w vis
    have hmt := hms a t w vis
    constructor
    · rw [epsLoopM_cons, epsL_cons, ← hmt.1]
      cases hm : matchesM f a t w vis with
      | none => rfl
      | some r =>
        obtain ⟨b1, v1, a1⟩ := r
        have hpres := hmt.2 _ hm
        cases b1 with
        | true => rfl
        | false =>
          show (epsLoopM f a1 ts w v1).map projM = epsL (trFun a) (accFun a) f ts w v1
          rw [(ih a1 w v1).1, hpres.1, hpres.2]
    · intro r hr
      rw [epsLoopM_cons] at hr
      cases hm : matchesM f a t w vis with
      | none => rw [hm] at hr; exact Option.noConfusion hr
      | some r1 =>
        obtain ⟨b1, v1, a1⟩ := r1
        have hpres := hmt.2 _ hm
        cases b1 with
        | true =>
          simp only [hm] at hr
          obtain rfl := Option.some.inj hr
          exact hpres
        | false =>
          simp only [hm] at hr
          have := (ih a1 w v1).2 r hr
          rw [hpres.1] at this
          rw [hpres.2] at this
          exact this

end BridgeProofs2

section BridgeProofs3

lemma bridge_ms :
    ∀ (f : Nat) (a : Arena) (s : Nat) (w : List Char) (vis : List Nat),
      (matchesM f a s w vis).map projM = ms (trFun a) (accFun a) f s w vis ∧
      ∀ r, matchesM f a s w vis = some r →
        trFun r.2.2 = trFun a ∧ accFun r.2.2 = accFun a := by
  intro f
  induction f with
  | zero =>
    intro a s w vis
    refine ⟨by rw [matchesM_zero, ms_zero]; rfl, ?_⟩
    intro r hr
    rw [matchesM_zero] at hr
    exact Option.noConfusion hr
  | succ f ih =>
    intro a s w vis
    rw [matchesM_succ, ms_succ]
    by_cases hv : s ∈ vis
    · simp only [if_pos hv]
      refine ⟨rfl, ?_⟩
      intro r hr
      obtain rfl := Option.some.inj hr
      exact ⟨rfl, rfl⟩
    · simp only [if_neg hv]
      cases w with
      | nil =>
        dsimp only
        have hacceq : acceptingAt a s = accFun a s := rfl
        by_cases hacc : acceptingAt a s = true
        · rw [hacc, ← hacceq, hacc]
          simp only [if_true]
          refine ⟨rfl, ?_⟩
          intro r hr
          obtain rfl := Option.some.inj hr
          exact ⟨rfl, rfl⟩
        · rw [← hacceq]
          rw [Bool.not_eq_true] at hacc
          rw [hacc]
          simp only [Bool.false_eq_true, if_false]
          have heps := bridge_eps_of ih (getTransOnSym a s EPS).2 (getTransOnSym a s EPS).1
            [] (vis ++ [s])
          have h1 := trFun_getTransOnSym a s EPS
          have h2 := accFun_getTransOnSym a s EPS
          have h3 := getTransOnSym_fst a s EPS
          constructor
          · rw [heps.1, h1, h2, h3]
          · intro r hr
            have := heps.2 r hr
            rw [h1] at this
            rw [h2] at this
            exact this
      | cons c rest =>
        dsimp only
        have hsymb := bridge_sym_of ih (getTransOnSym a s c).2 (getTransOnSym a s c).1 rest
        have h1 := trFun_getTransOnSym a s c
        have h2 := accFun_getTransOnSym a s c
        have h3 := getTransOnSym_fst a s c
        have hsymL : symL (trFun a) (accFun a) f (trFun a s c) rest =
            (symLoopM f (getTransOnSym a s c).2 (getTransOnSym a s c).1 rest).map (·.1) := by
          rw [hsymb.1, h1, h2, h3]
        cases hsm : symLoopM f (getTransOnSym a s c).2 (getTransOnSym a s c).1 rest with
        | none =>
          rw [hsm] at hsymL
          simp only [Option.map_none'] at hsymL
          simp only [hsm, hsymL]
          exact ⟨rfl, fun r hr => Option.noConfusion hr⟩
        | some rs =>
          obtain ⟨bs, a2⟩ := rs
          rw [hsm] at hsymL
          simp only [Option.map_some'] at hsymL
          have hpres2 : trFun a2 = trFun a ∧ accFun a2 = accFun a := by
            have := hsymb.2 _ hsm
            rw [h1] at this
            rw [h2] at this
            exact this
          cases bs with
          | true =>
            simp only [hsm, hsymL]
            refine ⟨rfl, ?_⟩
            intro r hr
            obtain rfl := Option.some.inj hr
            exact hpres2
          | false =>
            simp only [hsm, hsymL]
            have heps := bridge_eps_of ih (getTransOnSym a2 s EPS).2 (getTransOnSym a2 s EPS).1
              (c :: rest) (vis ++ [s])
            have h4 := trFun_getTransOnSym a2 s EPS
            have h5 := accFun_getTransOnSym a2 s EPS
            have h6 := getTransOnSym_fst a2 s EPS
            constructor
            · rw [heps.1, h4, h5, h6, hpres2.1, hpres2.2]
            · intro r hr
              have := heps.2 r hr
              rw [h4, hpres2.1] at this
              rw [h5, hpres2.2] at this
              exact this

end BridgeProofs3

section MatchesCorrect

lemma nfaMatches_iff_NPath (a : Arena) (s : Nat) (w : List Char)
    (hwf : WFArena a) (hs : s < a.length) :
    nfaMatches a s w = true ↔ NPath (trFun a) (accFun a) s w := by
  have hb := (bridge_ms (matchesFuel a w) a s w []).1
  have hfuel : matchesFuel a w = (w.length + 1) * (a.length + 1) := rfl
  constructor
  · intro h
    unfold nfaMatches at h
    cases hm : matchesM (matchesFuel a w) a s w [] with
    | none => rw [hm] at h; exact Bool.noConfusion h
    | some r =>
      rw [hm] at h
      obtain ⟨rb, rv, ra⟩ := r
      cases rb with
      | false => exact Bool.noConfusion h
      | true =>
        rw [hm] at hb
        exact ms_sound (trFun a) (accFun a) _ _ _ _ _ hb.symm
  · intro hp
    obtain ⟨v', hv'⟩ := (ms_iff (trFun a) (accFun a) hwf s w hs).mpr hp
    unfold nfaMatches
    rw [← hfuel] at hv'
    rw [hv'] at hb
    cases hm : matchesM (matchesFuel a w) a s w [] with
    | none => rw [hm] at hb; exact Option.noConfusion hb
    | some r =>
      rw [hm] at hb
      obtain ⟨rb, rv, ra⟩ := r
      have := Option.some.inj hb
      unfold projM at this
      have hrb : rb = true := congrArg Prod.fst this
      rw [hrb]

end MatchesCorrect

section MinimizeLemmas

lemma areEquivalentE_true {keys : List Nat} {s h : Nat} (h1 : s ∈ keys) (h2 : h ∈ keys) :
    areEquivalentE keys s h = true := by
  simp [areEquivalentE, goToSameSetE, minAlphabet, h1, h2]

lemma mem_insertLeNat (x y : Nat) (l : List Nat) : y ∈ insertLeNat x l ↔ y = x ∨ y ∈ l := by
  induction l with
  | nil => simp [insertLeNat]
  | cons a l ih =>
    simp only [insertLeNat]
    by_cases h : x ≤ a
    · simp [h]
    · simp [h, List.mem_cons, ih]
      tauto

lemma mem_sortNat (l : List Nat) (y : Nat) : y ∈ sortNat l ↔ y ∈ l := by
  induction l with
  | nil => simp [sortNat]
  | cons a l ih => simp [sortNat, mem_insertLeNat, ih]

lemma sortNat_ne_nil {l : List Nat} (h : l ≠ []) : sortNat l ≠ [] := by
  cases l with
  | nil => exact absurd rfl h
  | cons a l =>
    intro hc
    have ha : a ∈ sortNat (a :: l) := (mem_sortNat _ _).mpr (List.mem_cons_self a l)
    rw [hc] at ha
    exact absurd ha (List.not_mem_nil a)

lemma leaderOf_eq {handled : List (Nat × Nat)} {ℓ h0 : Nat}
    (hinv : ∀ p ∈ handled, p.2 = ℓ) (hmem : h0 ∈ handled.map Prod.fst) :
    leaderOf handled h0 = ℓ := by
  induction handled with
  | nil => simp at hmem
  | cons q hs ih =>
    unfold leaderOf
    cases hq : (q.1 == h0) with
    | true =>
      simp [List.find?, hq]
      exact hinv q (List.mem_cons_self q hs)
    | false =>
      simp only [List.find?, hq]
      have hmem' : h0 ∈ hs.map Prod.fst := by
        rcases List.mem_map.mp hmem with ⟨p, hp, hph⟩
        rcases List.mem_cons.mp hp with rfl | hp'
        · exfalso; rw [hph] at hq; simp at hq
        · exact List.mem_map.mpr ⟨p, hp', hph⟩
      have := ih (fun p hp => hinv p (List.mem_cons_of_mem q hp)) hmem'
      unfold leaderOf at this
      exact this

lemma findEquivHandled_all_in {keys : List Nat} {st : Nat} {handled : List (Nat × Nat)}
    (hne : handled ≠ []) (hst : st ∈ keys) (hh : ∀ p ∈ handled, p.1 ∈ keys) :
    ∃ h0, findEquivHandled keys st handled = some h0 ∧ h0 ∈ handled.map Prod.fst := by
  unfold findEquivHandled
  cases hs : sortNat (handled.map Prod.fst) with
  | nil =>
    exfalso
    have hmapne : handled.map Prod.fst ≠ [] := by
      cases handled with
      | nil => exact absurd rfl hne
      | cons a t => simp
    exact sortNat_ne_nil hmapne hs
  | cons h0 rest =>
    have hh0 : h0 ∈ handled.map Prod.fst := by
      have hx : h0 ∈ sortNat (handled.map Prod.fst) := by
        rw [hs]; exact List.mem_cons_self _ _
      exact (mem_sortNat _ _).mp hx
    have hkeys : h0 ∈ keys := by
      obtain ⟨p, hp, hph⟩ := List.mem_map.mp hh0
      rw [← hph]
      exact hh p hp
    exact ⟨h0, List.find?_cons_of_pos _ (areEquivalentE_true hst hkeys), hh0⟩

end MinimizeLemmas

section MinimizeLemmas2

lemma splitClassGo_all_in (keys : List Nat) (ℓ : Nat) :
    ∀ (rest : List Nat) (handled : List (Nat × Nat)), handled ≠ [] →
      (∀ p ∈ handled, p.1 ∈ keys ∧ p.2 = ℓ) → (∀ x ∈ rest, x ∈ keys) →
      splitClassGo keys handled rest = handled ++ rest.map (fun st => (st, ℓ)) := by
  intro rest
  induction rest with
  | nil => intro handled _ _ _; simp [splitClassGo]
  | cons st rest ih =>
    intro handled hne hinv hr
    have hst : st ∈ keys := hr st (List.mem_cons_self st rest)
    obtain ⟨h0, hfind, hh0⟩ := findEquivHandled_all_in hne hst (fun p hp => (hinv p hp).1)
    have hlead : leaderOf handled h0 = ℓ := leaderOf_eq (fun p hp => (hinv p hp).2) hh0
    simp only [splitClassGo, hfind, hlead]
    rw [ih (handled ++ [(st, ℓ)]) (by simp)
      (by
        intro p hp
        rcases List.mem_append.mp hp with hp | hp
        · exact hinv p hp
        · rw [List.mem_singleton.mp hp]
          exact ⟨hst, rfl⟩)
      (fun x hx => hr x (List.mem_cons_of_mem st hx))]
    simp

lemma splitClass_all_in (keys : List Nat) (c : Nat) (rest : List Nat)
    (h : ∀ x ∈ c :: rest, x ∈ keys) :
    splitClass keys (c :: rest) = (c, c) :: rest.map (fun st => (st, c)) := by
  show splitClassGo keys [(c, c)] rest = _
  rw [splitClassGo_all_in keys c rest [(c, c)] (by simp)
    (by
      intro p hp
      rw [List.mem_singleton.mp hp]
      exact ⟨h c (List.mem_cons_self c rest), rfl⟩)
    (fun x hx => h x (List.mem_cons_of_mem c hx))]
  simp

lemma refineAssoc_congr {k1 k2 : List Nat} :
    ∀ (P : Partition), (∀ cls ∈ P, ∀ x ∈ cls, x ∈ k1 ∧ x ∈ k2) →
      refineAssoc k1 P = refineAssoc k2 P := by
  have haux : ∀ (P : Partition), (∀ cls ∈ P, ∀ x ∈ cls, x ∈ k1 ∧ x ∈ k2) →
      ∀ acc, P.foldl (fun acc cls => acc ++ splitClass k1 cls) acc =
        P.foldl (fun acc cls => acc ++ splitClass k2 cls) acc := by
    intro P
    induction P with
    | nil => intro _ acc; rfl
    | cons cls P ih =>
      intro h acc
      have hcls := h cls (List.mem_cons_self cls P)
      have hsp : splitClass k1 cls = splitClass k2 cls := by
        cases cls with
        | nil => rfl
        | cons c rest =>
          rw [splitClass_all_in k1 c rest (fun x hx => (hcls x hx).1),
              splitClass_all_in k2 c rest (fun x hx => (hcls x hx).2)]
      simp only [List.foldl, hsp]
      exact ih (fun cls' h' => h cls' (List.mem_cons_of_mem cls h')) (acc ++ splitClass k2 cls)
  intro P h
  unfold refineAssoc
  exact haux P h []

lemma sameRow_none (r : Partition) : sameRow r none = false := rfl

lemma refineLoop_keys_congr {k1 k2 : List Nat} (fuel : Nat) (cur : Partition)
    (h : ∀ cls ∈ cur, ∀ x ∈ cls, x ∈ k1 ∧ x ∈ k2) :
    refineLoop (fuel + 1) k1 cur none = refineLoop (fuel + 1) k2 cur none := by
  have hassoc := refineAssoc_congr cur h
  simp only [refineLoop, sameRow_none, Bool.false_eq_true, if_false, hassoc]

lemma tableLookup_isSome_of_mem {T : MinTable} {s : Nat} (h : s ∈ T.map Prod.fst) :
    ∃ r, tableLookup T s = some r := by
  unfold tableLookup
  have hsome : (T.find? (fun q => q.1 == s)).isSome := by
    rw [List.find?_isSome]
    obtain ⟨p, hp, hps⟩ := List.mem_map.mp h
    exact ⟨p, hp, by simp [hps]⟩
  obtain ⟨q, hq⟩ := Option.isSome_iff_exists.mp hsome
  refine ⟨q.2, ?_⟩
  rw [hq]
  rfl

end MinimizeLemmas2

lemma wfArena_of_bounded {a : Arena} (h : arenaTargetsBounded a = true) : WFArena a := by
  intro s c t ht
  unfold trFun transOn at ht
  cases hf : (transList a s).find? (fun p => p.1 == c) with
  | none => rw [hf] at ht; simp at ht
  | some p =>
    rw [hf] at ht
    simp only [Option.map_some', Option.getD_some] at ht
    have hp : p ∈ transList a s := List.mem_of_find?_eq_some hf
    unfold transList stateAt at hp
    cases hg : a.get? s with
    | none => simp only [hg, Option.getD_none] at hp; simp at hp
    | some st =>
      simp only [hg, Option.getD_some] at hp
      have hst : st ∈ a := by
        rw [List.get?_eq_getElem?] at hg
        exact List.getElem?_mem hg
      unfold arenaTargetsBounded at h
      rw [List.all_eq_true] at h
      have h1 := h st hst
      rw [List.all_eq_true] at h1
      have h2 := h1 p hp
      rw [List.all_eq_true] at h2
      simpa using h2 t ht

/-- `dedupFirstGo` returns a duplicate-free list none of whose elements lies
in the `seen` accumulator. -/
lemma dedupFirstGo_nodup {α : Type} [DecidableEq α] :
    ∀ (l seen : List α), (dedupFirstGo seen l).Nodup ∧ ∀ x ∈ dedupFirstGo seen l, x ∉ seen := by
  intro l
  induction l with
  | nil => intro seen; simp [dedupFirstGo]
  | cons x xs ih =>
    intro seen
    simp only [dedupFirstGo]
    by_cases hx : x ∈ seen
    · simp only [if_pos hx]
      exact ih seen
    · simp only [if_neg hx]
      obtain ⟨hnd, hnot⟩ := ih (seen ++ [x])
      constructor
      · rw [List.nodup_cons]
        refine ⟨?_, hnd⟩
        intro hmem
        exact hnot x hmem (List.mem_append_right _ (List.mem_singleton.mpr rfl))
      · intro y hy
        rcases List.mem_cons.mp hy with rfl | hy2
        · exact hx
        · intro hys
          exact hnot y hy2 (List.mem_append_left _ hys)

/-- JS-`Set` first-occurrence de-duplication yields a duplicate-free list. -/
lemma dedupFirst_nodup {α : Type} [DecidableEq α] (l : List α) : (dedupFirst l).Nodup :=
  (dedupFirstGo_nodup l []).1

/-- Every raw successor set of the subset construction is duplicate-free:
`getDFAStatesOnSymbol` ends in `new Set(...)` de-duplication. -/
lemma dfaOnSymbol_nodup (nd : NfaData) (S : List Nat) (c : Char) :
    (dfaOnSymbol nd S c).Nodup :=
  dedupFirst_nodup _

/-- A key of `tblSet tbl l r` is a key of `tbl` or is `l` itself. -/
lemma mem_tblSet_keys {tbl : DfaTable} {l : String} {r : List (Char × String)} {x : String}
    (h : x ∈ (tblSet tbl l r).map Prod.fst) : x ∈ tbl.map Prod.fst ∨ x = l := by
  unfold tblSet at h
  by_cases hd : dfaHasRow tbl l
  · rw [if_pos hd] at h
    rw [List.map_map] at h
    obtain ⟨p, hp, hpx⟩ := List.mem_map.mp h
    by_cases hpl : (p.1 == l) = true
    · right
      simp only [Function.comp, hpl, if_pos] at hpx
      exact hpx.symm
    · left
      simp only [Function.comp, hpl, Bool.false_eq_true, if_false] at hpx
      exact List.mem_map.mpr ⟨p, hp, hpx⟩
  · rw [if_neg hd] at h
    rw [List.map_append] at h
    rcases List.mem_append.mp h with h1 | h1
    · exact Or.inl h1
    · right
      simpa using h1

/-- The per-symbol fold only pushes de-duplicated successor sets onto the
front of the worklist, so it preserves "every pending set is duplicate-free". -/
lemma dfaSymStep_front_nodup (nd : NfaData) (tblInit : DfaTable) (S : List Nat) :
    ∀ (alpha : List Char) (st : List (Char × String) × List String × List (List Nat)),
      (∀ X ∈ st.2.2, X.Nodup) →
      ∀ X ∈ (alpha.foldl (dfaSymStep nd tblInit S) st).2.2, X.Nodup := by
  intro alpha
  induction alpha with
  | nil => intro st h; exact h
  | cons c cs ih =>
    intro st h
    rw [List.foldl_cons]
    apply ih
    intro X hX
    unfold dfaSymStep at hX
    by_cases h0 : (dfaOnSymbol nd S c).length = 0
    · simp only [if_pos h0] at hX
      exact h X hX
    · simp only [if_neg h0] at hX
      by_cases hrow : dfaHasRow tblInit (joinNums (dfaOnSymbol nd S c))
      · simp only [if_pos hrow] at hX
        exact h X hX
      · simp only [if_neg hrow] at hX
        rcases List.mem_cons.mp hX with rfl | hX2
        · exact dfaOnSymbol_nodup nd S c
        · exact h X hX2

/-- Worklist invariant of the subset construction: if every pending id set
is duplicate-free and every key already in the table is the comma-join of a
duplicate-free id list, then every key of the finished table is the
comma-join of a duplicate-free id list. -/
lemma dfaLoop_labels_nodup_join (nd : NfaData) :
    ∀ (fuel : Nat) (wl : List (List Nat)) (tbl : DfaTable) (acc : List String),
      (∀ S ∈ wl, S.Nodup) →
      (∀ l ∈ tbl.map Prod.fst, ∃ ids : List Nat, ids.Nodup ∧ l = joinNums ids) →
      ∀ l ∈ ((dfaLoop nd fuel wl tbl acc).1).map Prod.fst,
        ∃ ids : List Nat, ids.Nodup ∧ l = joinNums ids := by
  intro fuel
  induction fuel with
  | zero => intro wl tbl acc _ htbl l hl; exact htbl l hl
  | succ fuel ih =>
    intro wl tbl acc hwl htbl l hl
    cases wl with
    | nil => exact htbl l hl
    | cons S rest =>
      simp only [dfaLoop] at hl
      refine ih _ _ _ ?_ ?_ l hl
      · intro X hX
        rcases List.mem_append.mp hX with hX1 | hX2
        · exact dfaSymStep_front_nodup nd _ S nd.alphabet ([], acc, []) (by simp) X hX1
        · exact hwl X (List.mem_cons_of_mem S hX2)
      · intro l2 hl2
        rcases mem_tblSet_keys hl2 with hl3 | rfl
        · rcases mem_tblSet_keys hl3 with hl4 | rfl
          · exact htbl l2 hl4
          · exact ⟨S, hwl S (List.mem_cons_self S rest), rfl⟩
        · exact ⟨S, hwl S (List.mem_cons_self S rest), rfl⟩

/-! Claim theorems. -/

/-- Claim C1 (code bug): the NFA graph walk and the DFA table walk are
claimed to agree on every fragment and input, but on the fragment
`rep(char('a'))` (the pattern `a*`) and the empty input the graph walk
accepts while the DFA rejects: the subset construction never adds the start
label to the accepting-label set. -/
theorem c1_nfa_dfa_disagree_on_empty :
    nfaMatches repAArena repAEntry [] = true ∧ dfaMatches repADfa [] = false := by
  decide

/-- Claim C2 (code bug): a DFA label is claimed accepting iff its id set
meets the NFA accepting ids — including the start label. On `a*` the start
label is `"1,2,4"`, its id set contains the accepting NFA id 4, yet the
accepting-label set holds only `"3,4,2"` (only transition-target labels are
ever tested), so the empty input is rejected although the start label's id
set contains an accepting id. -/
theorem c2_start_label_not_accepting :
    repADfa.start = "1,2,4" ∧
    (repANfa.rows.head?).map (fun r => r.2.closure) = some [1, 2, 4] ∧
    repANfa.acceptingNums = [4] ∧ (4 : Nat) ∈ [1, 2, 4] ∧
    repADfa.start ∉ repADfa.acceptingLabels ∧
    dfaMatches repADfa [] = false := by
  decide

/-- Claim C3 (code bug): two ids are claimed to share a subgroup iff their
per-symbol transition targets lie in identical classes (absence matching
only absence). The code's `goToSameSet` reads `currentTransitionMap[s][symbol]`
— a property of a `Set` object, always `undefined` — so it merges any two
states that both have map entries. On `{1: {}, 2: {a: 1}, 3: {}}` state 2
steps on `a` into the non-accepting class while 3 has no `a` transition, so
the claimed criterion separates them (`specSameTargets … = false`), yet the
code's test merges them and minimization collapses them into one class. -/
theorem c3_goToSameSet_ignores_targets :
    areEquivalentE ([] ++ tableKeys c3Table) 3 2 = true ∧
    specSameTargets c3Table [[1], [2, 3]] 3 2 = false ∧
    (minimizeFresh c3Table).1 = some [(1, []), (2, [("a", 1)])] := by
  decide

/-- Claim C4 (counterexample): labels are claimed to be sorted,
de-duplicated, comma-joined id sets, but the construction joins the ids in
`Set` insertion order without sorting: the `a*` DFA stores the label
`"3,4,2"`, whereas the sorted encoding of that id set is `"2,3,4"`. -/
theorem c4_label_not_sorted :
    dfaHasRow repADfa.table "3,4,2" = true ∧
    joinNums (sortNat [3, 4, 2]) = "2,3,4" ∧
    ("3,4,2" : String) ≠ "2,3,4" := by
  decide

/-- Claim C4 (amended): for every NFA table whose start row's closure is
duplicate-free, every key of the DFA table built by subset construction is
the comma-join of a duplicate-free NFA id list — the start closure, or the
first-occurrence de-duplication of a successor-closure union — taken in
`Set` insertion order rather than sorted; on the `a*` construction the
stored labels are exactly `"1,2,4"` and `"3,4,2"`, each the join of a
duplicate-free list, distinct strings encoding distinct id sets. -/
theorem c4_labels_join_insertion_order :
    (∀ nd : NfaData, (∀ r, nd.rows.head? = some r → r.2.closure.Nodup) →
      ∀ l ∈ (dfaBuild nd).table.map Prod.fst,
        ∃ ids : List Nat, ids.Nodup ∧ l = joinNums ids) ∧
    repADfa.table.map Prod.fst = ["1,2,4", "3,4,2"] ∧
    joinNums [1, 2, 4] = "1,2,4" ∧ joinNums [3, 4, 2] = "3,4,2" ∧
    ([1, 2, 4] : List Nat).Nodup ∧ ([3, 4, 2] : List Nat).Nodup ∧
    ("1,2,4" : String) ≠ "3,4,2" ∧
    (1 : Nat) ∈ [1, 2, 4] ∧ (1 : Nat) ∉ [3, 4, 2] := by
  refine ⟨?_, by decide, by decide, by decide, by decide, by decide,
    by decide, by decide, by decide⟩
  intro nd h
  unfold dfaBuild
  apply dfaLoop_labels_nodup_join nd
  · intro S hS
    rw [List.mem_singleton.mp hS]
    cases hr : nd.rows with
    | nil => exact List.nodup_nil
    | cons r rs => exact h r (by rw [hr]; rfl)
  · intro l hl
    simp at hl

/-- Claim C5 (counterexample): two `minimize` calls are claimed not to
interact, but the module-level `currentTransitionMap` is only overwritten
per table state, never cleared. On `{1: {}, 2: {}}` (no row for the
hard-coded accepting id 3) a fresh first call throws, while the same call
made after `minimize` of the example table — which leaves an entry for id 3
in the map — succeeds. -/
theorem c5_prior_run_changes_result :
    (minimizeFresh c5Table).1 = none ∧
    (minimizeRun c5Table (minimizeFresh exTable).2).1 = some [(1, []), (2, [])] := by
  decide

/-- Claim C5 (amended): if the input table has rows for both hard-coded
accepting ids 2 and 3, every state the refinement ever consults has a map
entry from this run's own initialization, so the result of `minimize` is
independent of whatever earlier runs left in `currentTransitionMap`. -/
theorem c5_no_interaction_with_rows_2_3 (T : MinTable) (p q : List Nat)
    (h2 : 2 ∈ tableKeys T) (h3 : 3 ∈ tableKeys T) :
    (minimizeRun T p).1 = (minimizeRun T q).1 := by
  simp only [minimizeRun]
  have hcls : ∀ cls ∈ ([(tableKeys T).filter (fun s => decide (s ∉ acceptingIds)),
      acceptingIds].filter (fun c => decide (0 < c.length))),
      ∀ x ∈ cls, x ∈ (p ++ tableKeys T) ∧ x ∈ (q ++ tableKeys T) := by
    intro cls hclsmem x hx
    have hxtk : x ∈ tableKeys T := by
      have hcl2 : cls ∈ [(tableKeys T).filter (fun s => decide (s ∉ acceptingIds)), acceptingIds] :=
        List.mem_of_mem_filter hclsmem
      rcases List.mem_cons.mp hcl2 with rfl | hcl3
      · exact (List.mem_filter.mp hx).1
      · rcases List.mem_cons.mp hcl3 with rfl | hcl4
        · rcases List.mem_cons.mp hx with rfl | hx2
          · exact h2
          · rw [List.mem_singleton.mp hx2]
            exact h3
        · exact absurd hcl4 (List.not_mem_nil cls)
    exact ⟨List.mem_append_right p hxtk, List.mem_append_right q hxtk⟩
  rw [show (tableKeys T).length + 4 = ((tableKeys T).length + 3) + 1 from rfl]
  rw [refineLoop_keys_congr ((tableKeys T).length + 3) _ hcls]
  cases refineLoop ((tableKeys T).length + 3 + 1) (q ++ tableKeys T)
      (List.filter (fun c => decide (0 < c.length))
        [List.filter (fun s => decide (s ∉ acceptingIds)) (tableKeys T), acceptingIds])
      none with
  | none => rfl
  | some final => rfl

/-- Witness for the amended claim C5 at the example table, whose rows
include states 2 and 3. -/
theorem c5_no_interaction_witness :
    (2 ∈ tableKeys exTable ∧ 3 ∈ tableKeys exTable) ∧
    (minimizeRun exTable [7, 8, 9]).1 = (minimizeRun exTable []).1 :=
  ⟨by decide, c5_no_interaction_with_rows_2_3 exTable [7, 8, 9] [] (by decide) (by decide)⟩

/-- Claim C6 (confirmed): the graph walk `matches` returns `true` iff some
path from the state — interleaving input-symbol edges and ε edges — consumes
the whole input and ends at an accepting state; in particular the
visited-set guard (reset on every input-consuming step) never rejects a
string that has such an accepting path. -/
theorem c6_matches_iff_accepting_path (a : Arena) (s : Nat) (w : List Char)
    (hb : arenaTargetsBounded a = true) (hs : s < a.length) :
    nfaMatches a s w = true ↔ NPath (trFun a) (accFun a) s w :=
  nfaMatches_iff_NPath a s w (wfArena_of_bounded hb) hs

/-- Witness for claim C6 on the `char('a')` arena at its entry state. -/
theorem c6_matches_witness :
    (arenaTargetsBounded charAArena = true ∧ 0 < charAArena.length) ∧
    (nfaMatches charAArena 0 ['a'] = true ↔ NPath (trFun charAArena) (accFun charAArena) 0 ['a']) :=
  ⟨⟨by decide, by decide⟩, c6_matches_iff_accepting_path charAArena 0 ['a'] (by decide) (by decide)⟩

/-- Claim C7 (code bug): `getEpsilonClosure` is claimed to return the state
plus everything ε-reachable from it. In the graph `A→B, A→D, B→C, C→A` (ids
0,1,3 / 1→2 / 2→0), a first call on A returns the correct `{0,1,2,3}`, but
it seals state C's memo while A's closure is still partial: C's stored
closure is `{2,0,1}` and a subsequent `getEpsilonClosure` on C returns it,
although D (id 3) is ε-reachable from C via A (2 → 0 → 3). -/
theorem c7_epsilon_closure_truncated :
    memoGet cycMemo1 0 = some [0, 1, 2, 3] ∧
    memoGet cycMemo2 2 = some [2, 0, 1] ∧
    transOn cycArena 2 EPS = [0] ∧ transOn cycArena 0 EPS = [1, 3] ∧
    (3 : Nat) ∉ [2, 0, 1] := by
  decide

/-- Claim C8 (counterexample): state-count idempotence of `minimize` fails.
On `{2: {}, 3: {}}` the first call returns the one-state table `{1: {}}`,
and applying `minimize` to that result (with the map residue the first run
leaves) throws, because the accepting class `{2, 3}` survives while the
table has no row 2. -/
theorem c8_double_minimize_differs :
    (minimizeFresh c8Table).1 = some [(1, [])] ∧
    (minimizeRun [(1, [])] (minimizeFresh c8Table).2).1 = none := by
  decide

/-- Claim C8 (amended): when a `minimize` output has exactly the two states
1 and 2 — one accepting, one not — and the process map holds an entry for
id 3 (as every completed run leaves), a second `minimize` on that output
succeeds and again yields exactly two states, so the class count is
preserved precisely in the two-class case. -/
theorem c8_idempotent_when_two_classes (T : MinTable) (R : List Nat)
    (htk : tableKeys T = [1, 2]) (h3 : 3 ∈ R) :
    ∃ T2, (minimizeRun T R).1 = some T2 ∧ tableKeys T2 = [1, 2] := by
  have h2' : (2 : Nat) ∈ R ++ [1, 2] := List.mem_append_right R (by decide)
  have h3' : (3 : Nat) ∈ R ++ [1, 2] := List.mem_append_left _ h3
  have hsplit : splitClass (R ++ [1, 2]) [2, 3] = [(2, 2), (3, 2)] := by
    show splitClassGo (R ++ [1, 2]) [(2, 2)] [3] = _
    have hfind : findEquivHandled (R ++ [1, 2]) 3 [(2, 2)] = some 2 := by
      unfold findEquivHandled
      show List.find? _ (sortNat [2]) = some 2
      rw [show sortNat [2] = [2] from rfl]
      exact List.find?_cons_of_pos _ (areEquivalentE_true h3' h2')
    simp only [splitClassGo, hfind]
    rfl
  have hassoc : refineAssoc (R ++ [1, 2]) [[1], [2, 3]] = [(1, 1), (2, 2), (3, 2)] := by
    unfold refineAssoc
    simp only [List.foldl]
    rw [show splitClass (R ++ [1, 2]) [1] = [(1, 1)] from rfl]
    rw [hsplit]
    rfl
  have hloop : refineLoop 6 (R ++ [1, 2]) [[1], [2, 3]] none = some [[1], [2, 3]] := by
    simp only [refineLoop, sameRow_none, Bool.false_eq_true, if_false, hassoc]
    decide
  have h1mem : (1 : Nat) ∈ T.map Prod.fst := by
    have h1tk : (1 : Nat) ∈ tableKeys T := by rw [htk]; decide
    unfold tableKeys at h1tk
    exact List.mem_dedup.mp ((mem_sortNat _ _).mp h1tk)
  have h2mem : (2 : Nat) ∈ T.map Prod.fst := by
    have h2tk : (2 : Nat) ∈ tableKeys T := by rw [htk]; decide
    unfold tableKeys at h2tk
    exact List.mem_dedup.mp ((mem_sortNat _ _).mp h2tk)
  obtain ⟨r1, hr1⟩ := tableLookup_isSome_of_mem h1mem
  obtain ⟨r2, hr2⟩ := tableLookup_isSome_of_mem h2mem
  refine ⟨[(1, buildRow [[1], [2, 3]] r1), (2, buildRow [[1], [2, 3]] r2)], ?_, ?_⟩
  · simp only [minimizeRun, htk]
    rw [show ([1, 2] : List Nat).length + 4 = 6 from rfl]
    rw [show (List.filter (fun c => decide (0 < c.length))
      [List.filter (fun s => decide (s ∉ acceptingIds)) [1, 2], acceptingIds]) =
        [[1], [2, 3]] from by decide]
    rw [hloop]
    simp only [rebuildGo, hr1, hr2]
  · rfl

/-- Witness for the amended claim C8: the example table minimizes to a
two-state table with residue containing 3, and minimizing again keeps two
states. -/
theorem c8_idempotent_witness :
    (tableKeys [(1, [("a", 2), ("b", 2)]), (2, [])] = [1, 2] ∧ 3 ∈ (minimizeFresh exTable).2) ∧
    ∃ T2, (minimizeRun [(1, [("a", 2), ("b", 2)]), (2, [])] (minimizeFresh exTable).2).1 =
      some T2 ∧ tableKeys T2 = [1, 2] :=
  ⟨⟨by decide, by decide⟩,
    c8_idempotent_when_two_classes [(1, [("a", 2), ("b", 2)]), (2, [])]
      (minimizeFresh exTable).2 (by decide) (by decide)⟩

/-- Claim C9 (confirmed): on `{1: {a: 2, b: 3}, 2: {}, 3: {}}` with
accepting `{2, 3}` and alphabet `{a, b}` the refinement collapses states 2
and 3 into one class, and `minimize` returns the two-state table whose
non-accepting start class steps on both `a` and `b` into the merged
accepting class. -/
theorem c9_minimize_example_two_classes :
    (minimizeFresh exTable).1 = some [(1, [("a", 2), ("b", 2)]), (2, [])] ∧
    refineLoop ((tableKeys exTable).length + 4) ([] ++ tableKeys exTable)
      [[1], [2, 3]] none = some [[1], [2, 3]] ∧
    (1 : Nat) ∉ acceptingIds ∧ (2 : Nat) ∈ acceptingIds ∧ (3 : Nat) ∈ acceptingIds := by
  decide

/-- Claim C10 (confirmed): `getTransitionsOnSymbol` stores a fresh empty set
for an unseen symbol even on a pure query, so running the graph walk on
`"b"` against the `char('a')` machine (a failing match) leaves a `b` column
with no targets in state 1's row and enlarges the alphabet from `{a}` to
`{a, b}`; building the table before any match yields the smaller alphabet. -/
theorem c10_matches_mutates_transition_map :
    (getTransOnSym charAArena 0 'b').2 ≠ charAArena ∧
    nfaMatches charAArena 0 ['b'] = false ∧
    (buildNfaData charAArena 0).alphabet = ['a'] ∧
    (buildNfaData (matchesArena charAArena 0 ['b']) 0).alphabet = ['a', 'b'] ∧
    (nrowOf (buildNfaData (matchesArena charAArena 0 ['b']) 0) 1).map NRow.syms =
      some [('a', [2]), ('b', [])] := by
  decide
